import Mathlib

/-!
Verification development for the tf2pulumi expression-and-statement compiler
(Node.js backend): the schema accessor triple, the interpolation-expression
walker, the schema-driven value serializer, and the dependency-ordered
statement emitter are embedded as Lean functions, and the stated properties
of the specification are proved or refuted against them.
-/

namespace TfGen

/-- The HIL lattice type (hashicorp/hil `ast.Type`). -/
inductive TType where
  | invalid
  | any
  | bool
  | string
  | int
  | float
  | list
  | map
  | unknown
deriving DecidableEq, Repr

/-- Terraform `schema.ValueType` (the source provider schema's declared kind). -/
inductive ValueType where
  | typeInvalid
  | typeBool
  | typeInt
  | typeFloat
  | typeString
  | typeList
  | typeMap
  | typeSet
deriving DecidableEq, Repr

mutual
/-- Terraform `schema.Schema`: the fields this core reads (declared type, the
`Elem` payload, and the `MaxItems` bound). -/
inductive Schema where
  | mk (type : ValueType) (elem : Option SchemaElem) (maxItems : Nat)

/-- The dynamic payload of `schema.Schema.Elem`: either a scalar element schema
or a nested resource shape. -/
inductive SchemaElem where
  | schema (s : Schema)
  | resource (r : Resource)

/-- Terraform `schema.Resource`: a named-field map of schemas (a nil Go map is
the empty list). -/
inductive Resource where
  | mk (schemaMap : List (String × Schema))
end

def Schema.type : Schema → ValueType
  | .mk t _ _ => t

def Schema.elem : Schema → Option SchemaElem
  | .mk _ e _ => e

def Schema.maxItems : Schema → Nat
  | .mk _ _ m => m

def Resource.schemaMap : Resource → List (String × Schema)
  | .mk m => m

/-- The pulumi target-override `tfbridge.SchemaInfo`: explicit name, per-field
overrides, element override and the max-items-one annotation. Nil Go maps are
the empty list. -/
inductive SchemaInfo where
  | mk (name : String) (fields : List (String × SchemaInfo)) (elem : Option SchemaInfo)
      (maxItemsOne : Option Bool)

def SchemaInfo.name : SchemaInfo → String
  | .mk n _ _ _ => n

def SchemaInfo.fields : SchemaInfo → List (String × SchemaInfo)
  | .mk _ f _ _ => f

def SchemaInfo.elem : SchemaInfo → Option SchemaInfo
  | .mk _ _ e _ => e

def SchemaInfo.maxItemsOne : SchemaInfo → Option Bool
  | .mk _ _ _ m => m

/-- Go map indexing on an association list: the first binding for the key, if
any (a missing key or a nil map yields the zero value, here `none`). -/
def lookupKey {α : Type} : List (String × α) → String → Option α
  | [], _ => none
  | (k, v) :: rest, key => if k == key then some v else lookupKey rest key

/-- The schema triple attached to a configuration position: source schema,
nested resource schema, and target override (each possibly absent). -/
structure schemas where
  tf : Option Schema
  tfRes : Option Resource
  pulumi : Option SchemaInfo

/-- `schemas.propertySchemas`: descend into the triple for a named field. -/
def schemas.propertySchemas (s : schemas) (key : String) : schemas :=
  let tf : Option Schema :=
    match s.tfRes with
    | some res => lookupKey res.schemaMap key
    | none => none
  let tfRes : Option Resource :=
    match tf with
    | some propSch =>
      match propSch.elem with
      | some (.resource r) => some r
      | _ => none
    | none => none
  let pulumi : Option SchemaInfo :=
    match s.pulumi with
    | some info => lookupKey info.fields key
    | none => none
  ⟨tf, tfRes, pulumi⟩

/-- `schemas.elemSchemas`: descend into the triple for a collection's element. -/
def schemas.elemSchemas (s : schemas) : schemas :=
  let (tf, tfRes) : Option Schema × Option Resource :=
    match s.tf with
    | some sch =>
      match sch.elem with
      | some (.schema e) => (some e, none)
      | some (.resource r) => (none, some r)
      | none => (none, none)
    | none => (none, none)
  let pulumi : Option SchemaInfo :=
    match s.pulumi with
    | some info => info.elem
    | none => none
  ⟨tf, tfRes, pulumi⟩

/-- `schemas.astType`: the lattice type declared by the triple. -/
def schemas.astType (s : schemas) : TType :=
  match s.tf with
  | some sch =>
    match sch.type with
    | .typeBool => .bool
    | .typeInt => .float
    | .typeFloat => .float
    | .typeString => .string
    | .typeList => .list
    | .typeSet => .list
    | .typeMap => .map
    | _ => .unknown
  | none =>
    match s.tfRes with
    | some _ => .map
    | none => .unknown

/-- `coerceProperty`: wrap serialized string text when the destination schema
declares a different type. -/
def coerceProperty (value : String) (valueType propertyType : TType) : String :=
  if valueType = propertyType ∨ valueType ≠ TType.string then
    value
  else
    match propertyType with
    | .bool =>
      if value = "\"true\"" then "true"
      else if value = "\"false\"" then "false"
      else "(" ++ value ++ " === \"true\")"
    | .int => "Number.parseFloat(" ++ value ++ ")"
    | .float => "Number.parseFloat(" ++ value ++ ")"
    | _ => value

/-- Rewrite spaces, hyphens and dots to underscores (the body of the
`strings.Map` calls of `resName` and `tsName`). -/
def underscoreSpecials (s : String) : String :=
  String.mk (s.data.map fun c => if c == ' ' || c == '-' || c == '.' then '_' else c)

/-- `strings.ContainsAny(s, " -.")`. -/
def hasSpecials (s : String) : Bool :=
  s.data.any fun c => c == ' ' || c == '-' || c == '.'

/-- `strings.Split` on a single-character separator, structurally over the
character list (Go semantics: the empty string yields one empty part). -/
def splitChars (sep : Char) : List Char → List (List Char)
  | [] => [[]]
  | c :: rest =>
    let groups := splitChars sep rest
    if c == sep then [] :: groups
    else
      match groups with
      | [] => [[c]]
      | grp :: gs => (c :: grp) :: gs

/-- `strings.Split(s, sep)` for a one-character separator. -/
def splitOnChar (sep : Char) (s : String) : List String :=
  (splitChars sep s.data).map String.mk

/-- Capitalize the first character of a string. -/
def capitalizeFirst (s : String) : String :=
  match s.data with
  | [] => ""
  | c :: cs => String.mk (c.toUpper :: cs)

/-- Modelled from the spec: the schema registry's standard case-convention
translation of a source name (`tfbridge.TerraformToPulumiName`, an external
collaborator): snake-case segments join as camelCase, and the final flag
capitalizes the first letter. The source-schema argument is accepted, as in
the bridge's signature, but does not affect this model. -/
def terraformToPulumiName (name : String) (tfSchema : Option Schema) (upper : Bool) : String :=
  let r :=
    match splitOnChar '_' name with
    | [] => ""
    | p :: ps => p ++ String.join (ps.map capitalizeFirst)
  if upper then capitalizeFirst r else r

/-- `resName`: the generated binding name of a resource instance. -/
def resName (typ name : String) : String :=
  let n := typ ++ "_" ++ name
  if hasSpecials n then underscoreSpecials n else n

/-- The fallback branches of `tsName` when no override name applies. -/
def tsNameFallback (tfName : String) (tfSchema : Option Schema) (isObjectKey : Bool) : String :=
  if hasSpecials tfName then
    if isObjectKey then "\"" ++ tfName ++ "\"" else underscoreSpecials tfName
  else terraformToPulumiName tfName tfSchema false

/-- `tsName`: translate a source name — an override-supplied explicit name is
used verbatim; special characters are quoted or rewritten; otherwise the
registry's standard translation applies. -/
def tsName (tfName : String) (tfSchema : Option Schema) (schemaInfo : Option SchemaInfo)
    (isObjectKey : Bool) : String :=
  match schemaInfo with
  | some info =>
    if info.name ≠ "" then info.name
    else tsNameFallback tfName tfSchema isObjectKey
  | none => tsNameFallback tfName tfSchema isObjectKey

/-- Modelled from the spec: the external bridge's collapse-to-scalar signal
(`tfbridge.IsMaxItemsOne`) for a schema/override pair — false without a source
schema or for a non-collection source type; the target-override annotation
decides when present, else the source schema's declared arity bound of one. -/
def IsMaxItemsOne (tf : Option Schema) (info : Option SchemaInfo) : Bool :=
  match tf with
  | none => false
  | some tfs =>
    if tfs.type ≠ ValueType.typeList ∧ tfs.type ≠ ValueType.typeSet then false
    else
      match info with
      | some i =>
        match i.maxItemsOne with
        | some b => b
        | none => tfs.maxItems == 1
      | none => tfs.maxItems == 1

/-- The kind of a node in the dependency graph. -/
inductive NodeKind where
  | variableKind
  | localKind
  | resourceKind
  | outputKind
deriving DecidableEq, Repr

/-- Modelled from the spec: the node graph supplied by the excluded front end
(its Go definition is not part of this core). Nodes are stable keys; the graph
exposes ordered variable/local/resource/output lists, each node's kind and
direct dependency list, and each provider's dependency list. -/
structure EGraph where
  kind : Nat → Option NodeKind
  deps : Nat → List Nat
  vars : List Nat
  locals : List Nat
  resources : List Nat
  outputs : List Nat
  providerDeps : List (List Nat)

/-- One invocation of a caller-supplied emission hook, recorded in order. -/
inductive Event where
  | preambleEv
  | variablesEv
  | localEv (n : Nat)
  | resourceEv (n : Nat)
  | outputsEv
deriving DecidableEq, Repr

/-- The node a kind-specific emission event is for, if any. -/
def Event.node? : Event → Option Nat
  | .localEv n => some n
  | .resourceEv n => some n
  | _ => none

/-- The dependency loop of `generateNode` (and the todo loop of `generate`):
run the given emission step on each node in order, threading the done-set and
concatenating the recorded hook invocations. -/
def genList (f : Nat → List Nat → Except String (List Event × List Nat)) :
    List Nat → List Nat → Except String (List Event × List Nat)
  | [], done => .ok ([], done)
  | d :: rest, done =>
    match f d done with
    | .error e => .error e
    | .ok (evs1, done1) =>
      match genList f rest done1 with
      | .error e => .error e
      | .ok (evs2, done2) => .ok (evs1 ++ evs2, done2)

/-- `generateNode`: depth-first emission of one node — skip if done, emit all
dependencies first, then invoke the kind-specific hook and mark the node done.
The fuel argument bounds the recursion depth; the Go original recurses
unboundedly (and diverges on a dependency cycle), so every successful run of
the original is a successful run here for a large enough fuel. -/
def generateNode (g : EGraph) : Nat → Nat → List Nat → Except String (List Event × List Nat)
  | 0 => fun _ _ => .error "recursion limit exceeded"
  | fuel + 1 => fun n done =>
    if n ∈ done then .ok ([], done)
    else
      match genList (generateNode g fuel) (g.deps n) done with
      | .error e => .error e
      | .ok (evs, done1) =>
        match g.kind n with
        | some .localKind => .ok (evs ++ [Event.localEv n], done1 ++ [n])
        | some .resourceKind => .ok (evs ++ [Event.resourceEv n], done1 ++ [n])
        | _ => .error "unexpected node type"

/-- The local/resource collection loop of `generate`: emit dependency-free
nodes immediately, defer the rest onto the todo list. -/
def genImmediate (g : EGraph) (fuel : Nat) :
    List Nat → List Nat → List Nat → Except String (List Event × List Nat × List Nat)
  | [], done, todo => .ok ([], done, todo)
  | n :: rest, done, todo =>
    if (g.deps n).isEmpty then
      match generateNode g fuel n done with
      | .error e => .error e
      | .ok (evs1, done1) =>
        match genImmediate g fuel rest done1 todo with
        | .error e => .error e
        | .ok (evs2, done2, todo2) => .ok (evs1 ++ evs2, done2, todo2)
    else
      genImmediate g fuel rest done (todo ++ [n])

/-- The output verification loop of `generate`: the first declared output
dependency that is not in the done-set, if any. -/
def checkOutputs (g : EGraph) : List Nat → List Nat → Option Nat
  | [], _ => none
  | o :: rest, done =>
    match (g.deps o).find? (fun d => !(done.contains d)) with
    | some d => some d
    | none => checkOutputs g rest done

/-- Steps 1–5 of `generate`: emit variables (marking them done), then all
locals and resources in dependency order, returning the recorded local and
resource hook invocations together with the final done-set. -/
def generateNodes (g : EGraph) (fuel : Nat) : Except String (List Event × List Nat) :=
  match genImmediate g fuel g.locals g.vars [] with
  | .error e => .error e
  | .ok (evs1, done1, todo1) =>
    match genImmediate g fuel g.resources done1 todo1 with
    | .error e => .error e
    | .ok (evs2, done2, todo2) =>
      match genList (generateNode g fuel) todo2 done2 with
      | .error e => .error e
      | .ok (evs3, done3) => .ok (evs1 ++ evs2 ++ evs3, done3)

/-- `generate`: validate provider dependencies, invoke the preamble and
variables hooks, emit locals and resources in dependency order, verify every
output dependency is done, and invoke the outputs hook.  Hooks are modelled as
pure recorders, so the result is the ordered sequence of hook invocations. -/
def generate (fuel : Nat) (g : EGraph) : Except String (List Event) :=
  if g.providerDeps.any (fun pd => pd.any (fun d => g.kind d != some NodeKind.variableKind)) then
    .error "unsupported provider dependency"
  else
    match generateNodes g fuel with
    | .error e => .error e
    | .ok (evs, done) =>
      match checkOutputs g g.outputs done with
      | some d => .error ("output has unsatisfied dependency " ++ toString d)
      | none => .ok ([Event.preambleEv, Event.variablesEv] ++ evs ++ [Event.outputsEv])

/-- The nodes of the kind-specific emission events of a trace, in order. -/
def payloads (evs : List Event) : List Nat := evs.filterMap Event.node?

/-- Well-formedness of the front end's graph: the kind of every node in the
four ordered lists matches the list it is in. -/
def EGraph.Wf (g : EGraph) : Prop :=
  (∀ n ∈ g.vars, g.kind n = some NodeKind.variableKind) ∧
  (∀ n ∈ g.locals, g.kind n = some NodeKind.localKind) ∧
  (∀ n ∈ g.resources, g.kind n = some NodeKind.resourceKind) ∧
  (∀ n ∈ g.outputs, g.kind n = some NodeKind.outputKind)

/-- A rank function witnessing dependency-acyclicity: every dependency edge
strictly decreases the rank. -/
def EGraph.RankedBy (g : EGraph) (rank : Nat → Nat) : Prop :=
  ∀ x y, y ∈ g.deps x → rank y < rank x

/-- Every kind-specific event of the trace comes after its node's
dependencies: each dependency was either already done when the trace started
or appears as an earlier event of the trace. -/
def DepsBefore (g : EGraph) (done : List Nat) (evs : List Event) : Prop :=
  ∀ i e n, evs.get? i = some e → e.node? = some n →
    ∀ d ∈ g.deps n, d ∈ done ∨ d ∈ payloads (evs.take i)

/-- The invariant tying one emission step's trace to the done-sets around it:
the final done-set extends the initial one by exactly the emitted nodes, each
emitted node is fresh, ranked no higher than one of the step's root nodes, and
emitted only once, and dependencies precede their dependents. -/
structure EmitInv (g : EGraph) (rank : Nat → Nat) (roots : List Nat)
    (done : List Nat) (evs : List Event) (done' : List Nat) : Prop where
  donEq : done' = done ++ payloads evs
  fresh : ∀ x ∈ payloads evs, x ∉ done
  rankLe : ∀ x ∈ payloads evs, ∃ r ∈ roots, rank x ≤ rank r
  nodup : (payloads evs).Nodup
  order : DepsBefore g done evs

/-- The dependency `d` of a node was emitted strictly before position `i` of
the trace: either `d` is a variable and the variables hook ran earlier, or an
earlier kind-specific event is for `d`. -/
def EmittedBefore (g : EGraph) (evs : List Event) (i : Nat) (d : Nat) : Prop :=
  (g.kind d = some NodeKind.variableKind ∧
    ∃ j, j < i ∧ evs.get? j = some Event.variablesEv) ∨
  (∃ j, j < i ∧ ∃ e, evs.get? j = some e ∧ e.node? = some d)

/-- Topological soundness of a recorded hook-invocation trace. -/
def TopoSound (g : EGraph) (evs : List Event) : Prop :=
  (∀ i e n, evs.get? i = some e → e.node? = some n →
    ∀ d ∈ g.deps n, EmittedBefore g evs i d) ∧
  (∀ n, n ∈ g.locals ∨ n ∈ g.resources →
    (evs.filter (fun e => e.node? == some n)).length = 1) ∧
  (∀ n, (evs.filter (fun e => e.node? == some n)).length ≤ 1) ∧
  (∃ k, evs.get? k = some Event.outputsEv ∧ k = evs.length - 1 ∧
    ∀ o ∈ g.outputs, ∀ d ∈ g.deps o, EmittedBefore g evs k d)

/-- A concrete acyclic graph: resource 1 with no dependencies, resource 2
depending on it, output 3 depending on resource 2. -/
def egW : EGraph where
  kind := fun n =>
    match n with
    | 1 => some NodeKind.resourceKind
    | 2 => some NodeKind.resourceKind
    | 3 => some NodeKind.outputKind
    | _ => none
  deps := fun n =>
    match n with
    | 2 => [1]
    | 3 => [2]
    | _ => []
  vars := []
  locals := []
  resources := [1, 2]
  outputs := [3]
  providerDeps := []

/-- A graph whose only output depends on a node that never enters the
done-set. -/
def egW4 : EGraph where
  kind := fun n => match n with
    | 1 => some NodeKind.outputKind
    | _ => none
  deps := fun n => match n with
    | 1 => [2]
    | _ => []
  vars := []
  locals := []
  resources := []
  outputs := [1]
  providerDeps := []

/-- HIL arithmetic/comparison/logical operators (`ast.ArithmeticOp`). -/
inductive ArithmeticOp where
  | add
  | sub
  | mul
  | div
  | mod
  | logicalAnd
  | logicalOr
  | equal
  | notEqual
  | lessThan
  | lessThanOrEqual
  | greaterThan
  | greaterThanOrEqual
  | invalidOp
deriving DecidableEq, Repr

/-- The dynamic payload of a HIL literal node's `Value` field. -/
inductive LitVal where
  | b (v : Bool)
  | i (v : Int)
  | f (v : Float)
  | s (v : String)

/-- Go `%v` formatting of a literal payload. -/
def LitVal.fmtV : LitVal → String
  | .b true => "true"
  | .b false => "false"
  | .i v => toString v
  | .f v => toString v
  | .s v => v

/-- Go `%q` formatting of one character of a string. -/
def goEscapeChar (c : Char) : String :=
  if c == '"' then "\\\""
  else if c == '\\' then "\\\\"
  else if c == '\n' then "\\n"
  else if c == '\t' then "\\t"
  else if c == '\r' then "\\r"
  else String.singleton c

/-- Go `%q` formatting of a string: quoted and escaped. -/
def goQuote (str : String) : String :=
  "\"" ++ String.join (str.data.map goEscapeChar) ++ "\""

/-- Go `%q` formatting of a literal payload (in HIL, a string-typed literal
always carries a string payload). -/
def LitVal.fmtQ : LitVal → String
  | .s v => goQuote v
  | v => goQuote v.fmtV

/-- Modelled from the spec: the parse result of the external configuration
package for an interpolation variable name (`config.NewInterpolatedVariable`),
tagged by reference kind. A resource reference carries the multi flag and its
type/name/field path (its graph key is `type.name`); a declared-variable
reference carries its name and element qualifier. -/
inductive InterpolatedVariable where
  | countVar
  | localVar
  | moduleVar
  | pathVar
  | resourceVar (multi : Bool) (typ : String) (name : String) (fld : String)
  | selfVar
  | simpleVar
  | terraformVar
  | userVar (name : String) (elem : String)

/-- The HIL interpolation-expression AST (`ast.Node` variants this core
handles). -/
inductive HilNode where
  | arithmetic (op : ArithmeticOp) (exprs : List HilNode)
  | call (fn : String) (args : List HilNode)
  | conditional (condExpr trueExpr falseExpr : HilNode)
  | index (target key : HilNode)
  | literal (typex : TType) (value : LitVal)
  | output (exprs : List HilNode)
  | variableAccess (v : InterpolatedVariable)

/-- A raw configuration value (Go `interface{}`), classified by the dynamic
kinds `computeProperty` distinguishes; `other` stands for every remaining
dynamic kind. -/
inductive Value where
  | bool (b : Bool)
  | int (i : Int)
  | float (f : Float)
  | str (s : String)
  | slice (elems : List Value)
  | map (entries : List (String × Value))
  | hil (n : HilNode)
  | other (kindName : String)

/-- Modelled from the spec: a variable node as the expression compiler sees it
(the graph's Go definition is not part of this core) — an optional default
value. -/
structure VariableNodeC where
  defaultValue : Option Value

/-- The pulumi `tfbridge.ResourceInfo` fields this core reads. -/
structure ResourceInfo where
  tok : String
  fields : List (String × SchemaInfo)

/-- The provider's registered metadata: the override table (`info.Resources`)
and the source schema table (`info.P.ResourcesMap`), both keyed by resource
type. -/
structure ProviderInfo where
  resources : List (String × ResourceInfo)
  resourcesMap : List (String × Resource)

/-- Modelled from the spec: a resource node as the expression compiler sees it
— a back-reference to its provider's registered metadata, when present. -/
structure ResourceNodeC where
  providerInfo : Option ProviderInfo

/-- Modelled from the spec: the node-graph lookup tables the expression
compiler reads — resource nodes keyed by their `type.name` id and variable
nodes keyed by name. -/
structure CGraph where
  resources : List (String × ResourceNodeC)
  vars : List (String × VariableNodeC)

/-- The result triple of the Go walker and serializer functions:
`(text, type, err)`. -/
structure CRes where
  text : String
  typ : TType
  err : Option String
deriving DecidableEq, Repr

/-- The result triple of `walkNodes`: `(texts, types, err)`. -/
structure CResL where
  strs : List String
  typs : List TType
  err : Option String
deriving DecidableEq, Repr

/-- The operator token table of `walkArithmetic` (an unknown operator keeps
the zero-value empty token). -/
def arithmeticOpToken : ArithmeticOp → String
  | .add => "+"
  | .sub => "-"
  | .mul => "*"
  | .div => "/"
  | .mod => "%"
  | .logicalAnd => "&&"
  | .logicalOr => "||"
  | .equal => "==="
  | .notEqual => "!=="
  | .lessThan => "<"
  | .lessThanOrEqual => "<="
  | .greaterThan => ">"
  | .greaterThanOrEqual => ">="
  | .invalidOp => ""

/-- `walkLiteral`: bool/int/float literals render verbatim, strings render
quoted, anything else fails. -/
def walkLiteral (typex : TType) (value : LitVal) : CRes :=
  match typex with
  | .bool => ⟨value.fmtV, typex, none⟩
  | .int => ⟨value.fmtV, typex, none⟩
  | .float => ⟨value.fmtV, typex, none⟩
  | .string => ⟨value.fmtQ, typex, none⟩
  | _ => ⟨"", .invalid, some "Unexpected literal type"⟩

/-- The field-path loop of `walkVariableAccess` for a resource reference: at
each step derive the property schema, then translate the step's name through
the registry's standard translation with the derived source schema. -/
def walkResourceFields (sch : schemas) : List String → List String × schemas
  | [] => ([], sch)
  | e :: rest =>
    let sch1 := sch.propertySchemas e
    let e1 := terraformToPulumiName e sch1.tf false
    let (rest1, schF) := walkResourceFields sch1 rest
    (e1 :: rest1, schF)

/-- `walkVariableAccess`: compile one variable reference.  `none` models a Go
panic (the nil-pointer dereference of the override table entry when the
provider's metadata lacks the resource type). -/
def walkVariableAccess (g : CGraph) (v : InterpolatedVariable) : Option CRes :=
  match v with
  | .countVar => some ⟨"", .invalid, some "NYI: count variables"⟩
  | .localVar => some ⟨"", .invalid, some "NYI: local variables"⟩
  | .moduleVar => some ⟨"", .invalid, some "NYI: module variables"⟩
  | .pathVar => some ⟨"", .invalid, some "NYI: path variables"⟩
  | .resourceVar multi typ name fld =>
    if multi then some ⟨"", .invalid, some "NYI: multi-resource variables"⟩
    else
      match lookupKey g.resources (typ ++ "." ++ name) with
      | none => some ⟨"", .invalid, some ("unknown resource " ++ typ ++ "." ++ name)⟩
      | some r =>
        match r.providerInfo with
        | some info =>
          match lookupKey info.resources typ with
          | none => none
          | some resInfo =>
            let sch : schemas :=
              ⟨none, lookupKey info.resourcesMap typ,
                some (SchemaInfo.mk "" resInfo.fields none none)⟩
            let (elements, schF) := walkResourceFields sch (splitOnChar '.' fld)
            some ⟨resName typ name ++ "." ++ String.intercalate "." elements,
              schF.astType, none⟩
        | none =>
          let sch : schemas := ⟨none, none, none⟩
          let (elements, schF) := walkResourceFields sch (splitOnChar '.' fld)
          some ⟨resName typ name ++ "." ++ String.intercalate "." elements,
            schF.astType, none⟩
  | .selfVar => some ⟨"", .invalid, some "NYI: self variables"⟩
  | .simpleVar => some ⟨"", .invalid, some "NYI: simple variables"⟩
  | .terraformVar => some ⟨"", .invalid, some "NYI: terraform variables"⟩
  | .userVar name elem =>
    if elem ≠ "" then some ⟨"", .invalid, some "NYI: user variable elements"⟩
    else
      match lookupKey g.vars name with
      | none => some ⟨"", .invalid, some ("unknown variable " ++ name)⟩
      | some vn =>
        let typ :=
          match vn.defaultValue with
          | none => TType.string
          | some (.str _) => TType.string
          | some _ => TType.unknown
        some ⟨terraformToPulumiName name none false, typ, none⟩

mutual
/-- `walkNode`: dispatch on the HIL AST variant. -/
def walkNode (g : CGraph) : HilNode → Option CRes
  | .arithmetic op exprs => walkArithmetic g op exprs
  | .call fn args => walkCall g fn args
  | .conditional c t f => walkConditional g c t f
  | .index t k => walkIndex g t k
  | .literal ty v => some (walkLiteral ty v)
  | .output exprs => walkOutput g exprs
  | .variableAccess v => walkVariableAccess g v
termination_by n => 2 * sizeOf n

/-- `walkNodes`: compile a list of HIL nodes, failing on the first error. -/
def walkNodes (g : CGraph) : List HilNode → Option CResL
  | [] => some ⟨[], [], none⟩
  | n :: rest =>
    match walkNode g n with
    | none => none
    | some r =>
      if r.err.isSome then some ⟨[], [], r.err⟩
      else
        match walkNodes g rest with
        | none => none
        | some rl =>
          if rl.err.isSome then some ⟨[], [], rl.err⟩
          else some ⟨r.text :: rl.strs, r.typ :: rl.typs, none⟩
termination_by ns => 2 * sizeOf ns

/-- `walkArithmetic`: operands joined by the target's operator token,
parenthesized; the result type is always numeric. -/
def walkArithmetic (g : CGraph) (op : ArithmeticOp) (exprs : List HilNode) : Option CRes :=
  match walkNodes g exprs with
  | none => none
  | some rl =>
    if rl.err.isSome then some ⟨"", .invalid, rl.err⟩
    else
      some ⟨"(" ++ String.intercalate (" " ++ arithmeticOpToken op ++ " ") rl.strs ++ ")",
        .float, none⟩
termination_by 2 * sizeOf exprs + 1

/-- `walkCall`: the fixed whitelist of recognized functions; `none` models the
Go index-out-of-range panic on too few arguments. -/
def walkCall (g : CGraph) (fn : String) (args : List HilNode) : Option CRes :=
  match walkNodes g args with
  | none => none
  | some rl =>
    if rl.err.isSome then some ⟨"", .invalid, rl.err⟩
    else
      match fn with
      | "file" =>
        match rl.strs with
        | s0 :: _ => some ⟨"fs.readFileSync(" ++ s0 ++ ", \"utf-8\")", .string, none⟩
        | [] => none
      | "lookup" =>
        match rl.strs with
        | s0 :: s1 :: rest =>
          let text := "(<any>" ++ s0 ++ ")[" ++ s1 ++ "]"
          let text :=
            if rl.strs.length == 3 then text ++ " || " ++ rest.headD ""
            else text
          some ⟨text, .unknown, none⟩
        | _ => none
      | "split" =>
        match rl.strs with
        | s0 :: s1 :: _ => some ⟨s1 ++ ".split(" ++ s0 ++ ")", .list, none⟩
        | _ => none
      | _ => some ⟨"", .invalid, some ("NYI: call to " ++ fn)⟩
termination_by 2 * sizeOf args + 1

/-- `walkConditional`: `(cond ? t : f)`, typed by the true branch, falling
back to the false branch on `Unknown`. -/
def walkConditional (g : CGraph) (c t f : HilNode) : Option CRes :=
  match walkNode g c with
  | none => none
  | some rc =>
    if rc.err.isSome then some ⟨"", .invalid, rc.err⟩
    else
      match walkNode g t with
      | none => none
      | some rt =>
        if rt.err.isSome then some ⟨"", .invalid, rt.err⟩
        else
          match walkNode g f with
          | none => none
          | some rf =>
            if rf.err.isSome then some ⟨"", .invalid, rf.err⟩
            else
              let typ := if rt.typ = TType.unknown then rf.typ else rt.typ
              some ⟨"(" ++ rc.text ++ " ? " ++ rt.text ++ " : " ++ rf.text ++ ")", typ, none⟩
termination_by 2 * (sizeOf c + sizeOf t + sizeOf f) + 1

/-- `walkIndex`: `target[key]`, always of unknown type. -/
def walkIndex (g : CGraph) (t k : HilNode) : Option CRes :=
  match walkNode g t with
  | none => none
  | some rt =>
    if rt.err.isSome then some ⟨"", .invalid, rt.err⟩
    else
      match walkNode g k with
      | none => none
      | some rk =>
        if rk.err.isSome then some ⟨"", .invalid, rk.err⟩
        else some ⟨rt.text ++ "[" ++ rk.text ++ "]", .unknown, none⟩
termination_by 2 * (sizeOf t + sizeOf k) + 1

/-- `walkOutput`: concatenate the compiled sub-expressions; the type is the
lone sub-expression's type when there is exactly one, else string. -/
def walkOutput (g : CGraph) (exprs : List HilNode) : Option CRes :=
  match walkNodes g exprs with
  | none => none
  | some rl =>
    if rl.err.isSome then some ⟨"", .invalid, rl.err⟩
    else
      let typ :=
        match rl.typs with
        | [t] => t
        | _ => TType.string
      some ⟨String.join rl.strs, typ, none⟩
termination_by 2 * sizeOf exprs + 1
decreasing_by all_goals (simp_wf <;> omega)
end

/-- A binding found by association-list indexing is a member, so it is
smaller than the list (a termination measure fact used by the serializer's
recursion). -/
def sizeOf_lookupKey {α : Type} [SizeOf α] :
    ∀ (l : List (String × α)) (k : String) (v : α),
      lookupKey l k = some v → sizeOf v < sizeOf l := by
  intro l
  induction l with
  | nil =>
    intro k v h
    simp [lookupKey] at h
  | cons p rest ih =>
    intro k v h
    obtain ⟨k1, v1⟩ := p
    simp only [lookupKey] at h
    split at h
    · cases h
      simp
      omega
    · have := ih k v h
      simp
      omega

/-- The Node.js generator: the project name and the stashed graph. -/
structure NodeGenerator where
  projectName : String
  graph : CGraph

/-- `computeHILProperty`: delegate an embedded expression node to the
expression compiler. -/
def computeHILProperty (g : NodeGenerator) (n : HilNode) : Option CRes :=
  walkNode g.graph n

/-- Modelled from the spec: the `sortedKeys` helper the serializer calls (its
Go definition is not part of this core) — a mapping's keys in ascending order,
making emission deterministic. -/
def sortedKeys (m : List (String × Value)) : List String :=
  (m.map Prod.fst).mergeSort

mutual
/-- `computeProperty`: serialize one raw value.  `none` models the
`contract.Failf` assertion on an unsupported dynamic kind (and any other Go
panic below). -/
def computeProperty (g : NodeGenerator) (v : Value) (indent : String) (sch : schemas) :
    Option CRes :=
  match v with
  | .hil n => computeHILProperty g n
  | .bool b => some ⟨if b then "true" else "false", .bool, none⟩
  | .int i => some ⟨toString i, .float, none⟩
  | .float f => some ⟨toString f, .float, none⟩
  | .str s => some ⟨goQuote s, .string, none⟩
  | .slice elems => computeSliceProperty g elems indent sch
  | .map entries => computeMapProperty g entries indent sch
  | .other _ => none
termination_by (sizeOf v, 0)

/-- `computeSliceProperty`: the collapse-to-scalar projection, else an
explicit sequence literal with statically-list-typed elements spliced. -/
def computeSliceProperty (g : NodeGenerator) (s : List Value) (indent : String)
    (sch : schemas) : Option CRes :=
  let elemSch := sch.elemSchemas
  if IsMaxItemsOne sch.tf sch.pulumi then
    match s with
    | [] => some ⟨"undefined", .unknown, none⟩
    | [v] => computeProperty g v indent elemSch
    | _ => some ⟨"", .invalid, some "expected at most one item in list"⟩
  else
    match computeSliceElems g s (indent ++ "    ") elemSch with
    | none => none
    | some (.error e) => some ⟨"", .invalid, some e⟩
    | some (.ok pieces) => some ⟨"[" ++ pieces ++ "\n" ++ indent ++ "]", .list, none⟩
termination_by (sizeOf s, 2)

/-- The element loop of `computeSliceProperty`: each element is serialized
with the element schema, spliced when statically list-typed, and coerced. -/
def computeSliceElems (g : NodeGenerator) (s : List Value) (elemIndent : String)
    (elemSch : schemas) : Option (Except String String) :=
  match s with
  | [] => some (.ok "")
  | v :: rest =>
    match computeProperty g v elemIndent elemSch with
    | none => none
    | some r =>
      if r.err.isSome then some (.error (r.err.getD ""))
      else
        let elem := if r.typ = TType.list then "..." ++ r.text else r.text
        match computeSliceElems g rest elemIndent elemSch with
        | none => none
        | some (.error e) => some (.error e)
        | some (.ok restStr) =>
          some (.ok ("\n" ++ elemIndent ++ coerceProperty elem r.typ elemSch.astType ++
            "," ++ restStr))
termination_by (sizeOf s, 1)

/-- `computeMapProperty`: an explicit keyed-record literal, keys in sorted
order. -/
def computeMapProperty (g : NodeGenerator) (m : List (String × Value)) (indent : String)
    (sch : schemas) : Option CRes :=
  match computeMapEntries g m (sortedKeys m) indent sch with
  | none => none
  | some (.error e) => some ⟨"", .invalid, some e⟩
  | some (.ok pieces) => some ⟨"\x7b" ++ pieces ++ "\n" ++ indent ++ "\x7d", .map, none⟩
termination_by (sizeOf m, (sortedKeys m).length + 1)

/-- The key loop of `computeMapProperty`: per key derive the property schema,
serialize the value, coerce, and render the translated key/value pair. -/
def computeMapEntries (g : NodeGenerator) (m : List (String × Value)) (keys : List String)
    (indent : String) (sch : schemas) : Option (Except String String) :=
  match keys with
  | [] => some (.ok "")
  | k :: rest =>
    match hkv : lookupKey m k with
    | none => none
    | some v =>
      let propSch := sch.propertySchemas k
      let propIndent := indent ++ "    "
      match computeProperty g v propIndent propSch with
      | none => none
      | some r =>
        if r.err.isSome then some (.error (r.err.getD ""))
        else
          let prop := coerceProperty r.text r.typ propSch.astType
          match computeMapEntries g m rest indent sch with
          | none => none
          | some (.error e) => some (.error e)
          | some (.ok restStr) =>
            some (.ok ("\n" ++ propIndent ++ tsName k propSch.tf propSch.pulumi true ++
              ": " ++ prop ++ "," ++ restStr))
termination_by (sizeOf m, keys.length)
decreasing_by
  all_goals simp_wf
  all_goals first
    | (apply Prod.Lex.right; omega)
    | (apply Prod.Lex.left; omega)
    | (apply Prod.Lex.left; have := sizeOf_lookupKey _ _ _ hkv; omega)
end

/-- The collapse-signalling schema triple of the C2 witness. -/
def schW2 : schemas := ⟨some (Schema.mk ValueType.typeList none 1), none, none⟩

/-- The trivial generator of the serializer witnesses. -/
def genW : NodeGenerator := ⟨"project", ⟨[], []⟩⟩

/-- The schema triples visited along a dot-separated field path, as §4.2
describes the walk: derive the property schema at every step. -/
def specPathSchemas (sch : schemas) : List String → schemas
  | [] => sch
  | e :: rest => specPathSchemas (sch.propertySchemas e) rest

/-- The amended §4.2 field-name translation: each path step rendered through
the registry's standard translation with the step's derived source schema —
ignoring any target-override explicit name. -/
def specPathNames (sch : schemas) : List String → List String
  | [] => []
  | e :: rest =>
    terraformToPulumiName e (sch.propertySchemas e).tf false ::
      specPathNames (sch.propertySchemas e) rest

/-- The C5 counterexample graph: one resource whose provider metadata carries
a field override with the explicit name "bar" for the source field "foo". -/
def cgC5 : CGraph :=
  ⟨[("aws_instance.my",
    ⟨some ⟨[("aws_instance", ⟨"", [("foo", SchemaInfo.mk "bar" [] none none)]⟩)], []⟩⟩)],
   []⟩

/-- Whether a raw value is a Go string (the type assertion of the
declared-variable branch). -/
def Value.isStringValue : Value → Bool
  | .str _ => true
  | _ => false

/-- The C6 witness graph: one variable without default, one with a numeric
default. -/
def cgC6 : CGraph := ⟨[], [("no_default", ⟨none⟩), ("num_default", ⟨some (Value.int 5)⟩)]⟩

/-- The C7 witness mapping in two iteration orders. -/
def mW7 : List (String × Value) := [("b", Value.int 1), ("a", Value.int 2)]

/-- The C7 witness mapping, reordered. -/
def mW7r : List (String × Value) := [("a", Value.int 2), ("b", Value.int 1)]

/-- The erroring expression node of the C9 witness. -/
def hilErrW : HilNode := .variableAccess .countVar

/-- The erroring one-key mapping of the C9 witness. -/
def mW9 : List (String × Value) := [("k", Value.hil hilErrW)]

mutual
/-- Two raw values denote the same configuration value: identical scalars and
expression nodes, element-wise equivalent sequences, and mappings equal up to
iteration order. -/
inductive ValueEquiv : Value → Value → Prop where
  | bool (b : Bool) : ValueEquiv (.bool b) (.bool b)
  | int (i : Int) : ValueEquiv (.int i) (.int i)
  | float (f : Float) : ValueEquiv (.float f) (.float f)
  | str (s : String) : ValueEquiv (.str s) (.str s)
  | hil (n : HilNode) : ValueEquiv (.hil n) (.hil n)
  | other (k : String) : ValueEquiv (.other k) (.other k)
  | slice {l l' : List Value} : ValueListEquiv l l' → ValueEquiv (.slice l) (.slice l')
  | map {m m' : List (String × Value)} : ValueMapEquiv m m' → ValueEquiv (.map m) (.map m')

/-- Element-wise equivalence of sequences. -/
inductive ValueListEquiv : List Value → List Value → Prop where
  | nil : ValueListEquiv [] []
  | cons {v v' : Value} {l l' : List Value} :
      ValueEquiv v v' → ValueListEquiv l l' → ValueListEquiv (v :: l) (v' :: l')

/-- Two association lists denote the same mapping: the same keys (up to
order), with equivalent values under every key. -/
inductive ValueMapEquiv : List (String × Value) → List (String × Value) → Prop where
  | mk {m m' : List (String × Value)} :
      (m.map Prod.fst).Perm (m'.map Prod.fst) →
      (∀ k v v', lookupKey m k = some v → lookupKey m' k = some v' → ValueEquiv v v') →
      ValueMapEquiv m m'
end

theorem payloads_append (a b : List Event) :
    payloads (a ++ b) = payloads a ++ payloads b :=
  List.filterMap_append a b Event.node?

theorem depsBefore_nil (g : EGraph) (done : List Nat) : DepsBefore g done [] := by
  intro i e n hget
  simp at hget

theorem depsBefore_append {g : EGraph} {done : List Nat} {evs1 evs2 : List Event}
    (h1 : DepsBefore g done evs1) (h2 : DepsBefore g (done ++ payloads evs1) evs2) :
    DepsBefore g done (evs1 ++ evs2) := by
  intro i e n hget hnode d hd
  by_cases hi : i < evs1.length
  · rw [List.get?_append hi] at hget
    rcases h1 i e n hget hnode d hd with h | h
    · exact Or.inl h
    · refine Or.inr ?_
      rw [List.take_append_eq_append_take, payloads_append]
      exact List.mem_append_left _ h
  · push_neg at hi
    rw [List.get?_append_right hi] at hget
    rcases h2 (i - evs1.length) e n hget hnode d hd with h | h
    · rw [List.mem_append] at h
      rcases h with h | h
      · exact Or.inl h
      · refine Or.inr ?_
        rw [List.take_append_eq_append_take, payloads_append]
        rw [List.take_of_length_le (le_trans (le_of_eq rfl) hi)]
        exact List.mem_append_left _ h
    · refine Or.inr ?_
      rw [List.take_append_eq_append_take, payloads_append]
      rw [List.take_of_length_le hi]
      exact List.mem_append_right _ h

theorem depsBefore_singleton {g : EGraph} {done : List Nat} {e : Event} {n : Nat}
    (hn : e.node? = some n) (h : ∀ d ∈ g.deps n, d ∈ done) :
    DepsBefore g done [e] := by
  intro i e' n' hget hnode d hd
  cases i with
  | zero =>
    simp at hget
    subst hget
    rw [hn] at hnode
    cases hnode
    exact Or.inl (h d hd)
  | succ j => simp at hget

theorem emitInv_nil (g : EGraph) (rank : Nat → Nat) (roots : List Nat) (done : List Nat) :
    EmitInv g rank roots done [] done := by
  refine ⟨by simp [payloads], by simp [payloads], by simp [payloads], by simp [payloads],
    depsBefore_nil g done⟩

theorem emitInv_mono_roots {g : EGraph} {rank : Nat → Nat} {r1 r2 done evs done'}
    (h : EmitInv g rank r1 done evs done') (hsub : ∀ x ∈ r1, x ∈ r2) :
    EmitInv g rank r2 done evs done' := by
  refine ⟨h.donEq, h.fresh, fun x hx => ?_, h.nodup, h.order⟩
  rcases h.rankLe x hx with ⟨r, hr, hle⟩
  exact ⟨r, hsub r hr, hle⟩

theorem emitInv_append {g : EGraph} {rank : Nat → Nat} {r1 r2 done evs1 done1 evs2 done2}
    (h1 : EmitInv g rank r1 done evs1 done1) (h2 : EmitInv g rank r2 done1 evs2 done2) :
    EmitInv g rank (r1 ++ r2) done (evs1 ++ evs2) done2 := by
  have hdon1 := h1.donEq
  refine ⟨?_, ?_, ?_, ?_, ?_⟩
  · rw [payloads_append, h2.donEq, hdon1, List.append_assoc]
  · intro x hx
    rw [payloads_append, List.mem_append] at hx
    rcases hx with hx | hx
    · exact h1.fresh x hx
    · have := h2.fresh x hx
      rw [hdon1] at this
      intro hc
      exact this (List.mem_append_left _ hc)
  · intro x hx
    rw [payloads_append, List.mem_append] at hx
    rcases hx with hx | hx
    · rcases h1.rankLe x hx with ⟨r, hr, hle⟩
      exact ⟨r, List.mem_append_left _ hr, hle⟩
    · rcases h2.rankLe x hx with ⟨r, hr, hle⟩
      exact ⟨r, List.mem_append_right _ hr, hle⟩
  · rw [payloads_append, List.nodup_append]
    refine ⟨h1.nodup, h2.nodup, ?_⟩
    intro x hx1 hx2
    have := h2.fresh x hx2
    rw [hdon1] at this
    exact this (List.mem_append_right _ hx1)
  · refine depsBefore_append h1.order ?_
    rw [← hdon1]
    exact h2.order

theorem emitInv_done_subset {g : EGraph} {rank : Nat → Nat} {roots done evs done'}
    (h : EmitInv g rank roots done evs done') : ∀ x ∈ done, x ∈ done' := by
  intro x hx
  rw [h.donEq]
  exact List.mem_append_left _ hx

/-- The invariant for one `genList` pass, given it for each step. -/
theorem genList_inv {g : EGraph} {rank : Nat → Nat}
    {f : Nat → List Nat → Except String (List Event × List Nat)}
    (hf : ∀ n done evs done', f n done = .ok (evs, done') →
      EmitInv g rank [n] done evs done' ∧ n ∈ done') :
    ∀ ds done evs done', genList f ds done = .ok (evs, done') →
      EmitInv g rank ds done evs done' ∧ ∀ d ∈ ds, d ∈ done' := by
  intro ds
  induction ds with
  | nil =>
    intro done evs done' h
    simp only [genList] at h
    cases h
    exact ⟨emitInv_nil g rank [] done, by simp⟩
  | cons d rest ih =>
    intro done evs done' h
    simp only [genList] at h
    split at h
    · cases h
    · rename_i evs1 done1 h1
      split at h
      · cases h
      · rename_i evs2 done2 h2
        obtain ⟨inv1, hd1⟩ := hf d done evs1 done1 h1
        obtain ⟨inv2, hall2⟩ := ih done1 evs2 done2 h2
        cases h
        refine ⟨emitInv_mono_roots (emitInv_append inv1 inv2) (by simp), ?_⟩
        intro x hx
        rcases List.mem_cons.mp hx with hx | hx
        · subst hx
          exact emitInv_done_subset inv2 x hd1
        · exact hall2 x hx

/-- The invariant for a single `generateNode` call, on an acyclic graph. -/
theorem generateNode_inv {g : EGraph} {rank : Nat → Nat} (hrank : g.RankedBy rank) :
    ∀ fuel n done evs done', generateNode g fuel n done = .ok (evs, done') →
      EmitInv g rank [n] done evs done' ∧ n ∈ done' := by
  intro fuel
  induction fuel with
  | zero =>
    intro n done evs done' h
    simp only [generateNode] at h
    cases h
  | succ fuel ih =>
    intro n done evs done' h
    simp only [generateNode] at h
    by_cases hdone : n ∈ done
    · rw [if_pos hdone] at h
      cases h
      exact ⟨emitInv_nil g rank [n] done, hdone⟩
    · rw [if_neg hdone] at h
      split at h
      · cases h
      · rename_i evs1 done1 hdeps
        obtain ⟨inv1, hall1⟩ := genList_inv ih (g.deps n) done evs1 done1 hdeps
        have hfreshn : n ∉ payloads evs1 := by
          intro hc
          rcases inv1.rankLe n hc with ⟨r, hr, hle⟩
          exact absurd hle (not_le.mpr (hrank n r hr))
        have key : ∀ ev : Event, ev.node? = some n →
            EmitInv g rank [n] done (evs1 ++ [ev]) (done1 ++ [n]) ∧ n ∈ done1 ++ [n] := by
          intro ev hev
          have inv2 : EmitInv g rank [n] done1 [ev] (done1 ++ [n]) := by
            refine ⟨by simp [payloads, hev], ?_, ?_, by simp [payloads, hev], ?_⟩
            · intro x hx
              simp [payloads, hev] at hx
              rw [hx, inv1.donEq]
              intro hc
              rcases List.mem_append.mp hc with hc | hc
              · exact hdone hc
              · exact hfreshn hc
            · intro x hx
              simp [payloads, hev] at hx
              rw [hx]
              exact ⟨n, by simp, le_refl _⟩
            · exact depsBefore_singleton hev (fun d hd => hall1 d hd)
          have hboth := emitInv_append inv1 inv2
          refine ⟨⟨hboth.donEq, hboth.fresh, ?_, hboth.nodup, hboth.order⟩, by simp⟩
          intro x hx
          rcases hboth.rankLe x hx with ⟨r, hr, hle⟩
          rcases List.mem_append.mp hr with hr | hr
          · exact ⟨n, by simp, le_trans hle (le_of_lt (hrank n r hr))⟩
          · simp at hr
            rw [hr] at hle
            exact ⟨n, by simp, hle⟩
        split at h
        · cases h
          exact key (Event.localEv n) rfl
        · cases h
          exact key (Event.resourceEv n) rfl
        · cases h

/-- The invariant for one local/resource collection pass of `generate`. -/
theorem genImmediate_inv {g : EGraph} {rank : Nat → Nat} (hrank : g.RankedBy rank) (fuel : Nat) :
    ∀ ns done todo evs done' todo',
      genImmediate g fuel ns done todo = .ok (evs, done', todo') →
      EmitInv g rank ns done evs done' ∧
      (∀ n ∈ ns, n ∈ done' ∨ n ∈ todo') ∧
      (∀ t ∈ todo', t ∈ todo ∨ t ∈ ns) ∧
      (∀ t ∈ todo, t ∈ todo') := by
  intro ns
  induction ns with
  | nil =>
    intro done todo evs done' todo' h
    simp only [genImmediate] at h
    cases h
    exact ⟨emitInv_nil g rank [] done, by simp, fun t ht => Or.inl ht, fun t ht => ht⟩
  | cons n rest ih =>
    intro done todo evs done' todo' h
    simp only [genImmediate] at h
    split at h
    · split at h
      · cases h
      · rename_i evs1 done1 h1
        split at h
        · cases h
        · rename_i evs2 done2 todo2 h2
          obtain ⟨inv1, hn1⟩ := generateNode_inv hrank fuel n done evs1 done1 h1
          obtain ⟨inv2, hmem2, horig2, hpres2⟩ := ih done1 todo evs2 done2 todo2 h2
          cases h
          refine ⟨emitInv_mono_roots (emitInv_append inv1 inv2) (by simp), ?_, ?_, hpres2⟩
          · intro m hm
            rcases List.mem_cons.mp hm with hm | hm
            · subst hm
              exact Or.inl (emitInv_done_subset inv2 m hn1)
            · exact hmem2 m hm
          · intro t ht
            rcases horig2 t ht with ht | ht
            · exact Or.inl ht
            · exact Or.inr (List.mem_cons_of_mem n ht)
    · obtain ⟨inv2, hmem2, horig2, hpres2⟩ := ih done (todo ++ [n]) evs done' todo' h
      refine ⟨emitInv_mono_roots inv2 (fun x hx => List.mem_cons_of_mem n hx), ?_, ?_, ?_⟩
      · intro m hm
        rcases List.mem_cons.mp hm with hm | hm
        · subst hm
          exact Or.inr (hpres2 m (List.mem_append_right todo (by simp)))
        · exact hmem2 m hm
      · intro t ht
        rcases horig2 t ht with ht | ht
        · rcases List.mem_append.mp ht with ht | ht
          · exact Or.inl ht
          · simp at ht
            subst ht
            exact Or.inr (by simp)
        · exact Or.inr (List.mem_cons_of_mem n ht)
      · intro t ht
        exact hpres2 t (List.mem_append_left _ ht)

/-- The combined invariant of the whole locals/resources phase of `generate`. -/
theorem generateNodes_inv {g : EGraph} {rank : Nat → Nat} (hrank : g.RankedBy rank)
    {fuel : Nat} {evs : List Event} {done' : List Nat}
    (h : generateNodes g fuel = .ok (evs, done')) :
    done' = g.vars ++ payloads evs ∧
    (∀ x ∈ payloads evs, x ∉ g.vars) ∧
    (payloads evs).Nodup ∧
    DepsBefore g g.vars evs ∧
    (∀ n, n ∈ g.locals ∨ n ∈ g.resources → n ∈ done') := by
  unfold generateNodes at h
  split at h
  · cases h
  · rename_i evs1 done1 todo1 h1
    split at h
    · cases h
    · rename_i evs2 done2 todo2 h2
      split at h
      · cases h
      · rename_i evs3 done3 h3
        obtain ⟨inv1, hmem1, horig1, _⟩ := genImmediate_inv hrank fuel g.locals g.vars [] evs1 done1 todo1 h1
        obtain ⟨inv2, hmem2, horig2, hpres2⟩ := genImmediate_inv hrank fuel g.resources done1 todo1 evs2 done2 todo2 h2
        obtain ⟨inv3, hall3⟩ := genList_inv (generateNode_inv hrank fuel) todo2 done2 evs3 done3 h3
        cases h
        have invAll := emitInv_append (emitInv_append inv1 inv2) inv3
        refine ⟨invAll.donEq, invAll.fresh, invAll.nodup, invAll.order, ?_⟩
        intro n hn
        rcases hn with hn | hn
        · rcases hmem1 n hn with hd | ht
          · exact emitInv_done_subset inv3 n (emitInv_done_subset inv2 n hd)
          · exact hall3 n (hpres2 n ht)
        · rcases hmem2 n hn with hd | ht
          · exact emitInv_done_subset inv3 n hd
          · exact hall3 n ht

/-- When the output verification loop reports nothing, every output dependency
is in the done-set. -/
theorem checkOutputs_none {g : EGraph} :
    ∀ os done, checkOutputs g os done = none →
      ∀ o ∈ os, ∀ d ∈ g.deps o, d ∈ done := by
  intro os
  induction os with
  | nil =>
    intro done _ o ho
    simp at ho
  | cons o rest ih =>
    intro done h o' ho' d hd
    simp only [checkOutputs] at h
    split at h
    · cases h
    · rename_i hfind
      rcases List.mem_cons.mp ho' with rfl | ho'
      · have := List.find?_eq_none.mp hfind d hd
        simpa using this
      · exact ih done h o' ho' d hd

/-- When some output dependency is missing from the done-set, the output
verification loop reports a missing dependency. -/
theorem checkOutputs_some {g : EGraph} :
    ∀ os done o d, o ∈ os → d ∈ g.deps o → d ∉ done →
      ∃ d', checkOutputs g os done = some d' := by
  intro os
  induction os with
  | nil =>
    intro done o d ho
    simp at ho
  | cons o1 rest ih =>
    intro done o d ho hd hnd
    simp only [checkOutputs]
    split
    · rename_i d' _
      exact ⟨d', rfl⟩
    · rename_i hfind
      rcases List.mem_cons.mp ho with rfl | ho
      · have := List.find?_eq_none.mp hfind d hd
        simp at this
        exact absurd this hnd
      · exact ih done o d ho hd hnd

theorem mem_payloads_take {l : List Event} {i : Nat} {d : Nat}
    (h : d ∈ payloads (l.take i)) :
    ∃ j, j < i ∧ ∃ e, l.get? j = some e ∧ e.node? = some d := by
  rcases List.mem_filterMap.mp h with ⟨e, he, hne⟩
  rcases List.mem_iff_get?.mp he with ⟨j, hj⟩
  have hjlen : j < (l.take i).length := by
    rcases List.get?_eq_some.mp hj with ⟨hlt, _⟩
    exact hlt
  have hji : j < i := lt_of_lt_of_le hjlen (by simp [List.length_take])
  refine ⟨j, hji, e, ?_, hne⟩
  rw [← List.get?_take hji]
  exact hj

theorem mem_payloads_index {l : List Event} {d : Nat} (h : d ∈ payloads l) :
    ∃ j, j < l.length ∧ ∃ e, l.get? j = some e ∧ e.node? = some d := by
  rcases List.mem_filterMap.mp h with ⟨e, he, hne⟩
  rcases List.mem_iff_get?.mp he with ⟨j, hj⟩
  rcases List.get?_eq_some.mp hj with ⟨hlt, _⟩
  exact ⟨j, hlt, e, hj, hne⟩

/-- A trace's count of kind-specific events for a node is that node's
multiplicity among the emitted nodes. -/
theorem filter_node_count (l : List Event) (n : Nat) :
    (l.filter (fun e => e.node? == some n)).length = (payloads l).count n := by
  induction l with
  | nil => simp [payloads]
  | cons e rest ih =>
    cases he : e.node? with
    | none =>
      rw [List.filter_cons, if_neg (by simp [he])]
      simp only [payloads, List.filterMap_cons, he]
      exact ih
    | some m =>
      by_cases hm : m = n
      · subst hm
        rw [List.filter_cons, if_pos (by simp [he])]
        simp only [payloads, List.filterMap_cons, he]
        rw [List.count_cons_self, List.length_cons]
        exact congrArg (· + 1) ih
      · rw [List.filter_cons, if_neg (by simp [he, hm])]
        simp only [payloads, List.filterMap_cons, he]
        rw [List.count_cons_of_ne (fun hc => hm hc.symm)]
        exact ih

/-- C1: on a well-formed, dependency-acyclic graph, a successful `generate`
run is topologically sound — every dependency of an emitted local/resource has
its kind-specific hook invoked strictly before it, every local/resource node's
hook is invoked exactly once (and no node's hook twice, however many
dependency lists mention it), and every output dependency is emitted before
the trailing outputs phase. -/
theorem generate_topologically_sound (fuel : Nat) (g : EGraph) (rank : Nat → Nat)
    (evs : List Event) (hwf : g.Wf) (hrank : g.RankedBy rank)
    (h : generate fuel g = .ok evs) : TopoSound g evs := by
  unfold generate at h
  split at h
  · cases h
  · split at h
    · cases h
    · rename_i body done3 hnodes
      split at h
      · cases h
      · rename_i hchk
        obtain ⟨hdon, hfresh, hnodup, horder, hmem⟩ := generateNodes_inv hrank hnodes
        have houts : ∀ o ∈ g.outputs, ∀ d ∈ g.deps o, d ∈ done3 :=
          checkOutputs_none g.outputs done3 hchk
        cases h
        have hvarget :
            ([Event.preambleEv, Event.variablesEv] ++ body ++ [Event.outputsEv]).get? 1 =
              some Event.variablesEv := by
          simp
        have hbodyget : ∀ j e, j < body.length → body.get? j = some e →
            ([Event.preambleEv, Event.variablesEv] ++ body ++ [Event.outputsEv]).get? (j + 2) =
              some e := by
          intro j e hj hje
          simp only [List.cons_append, List.nil_append, List.get?_cons_succ]
          rw [List.get?_append hj]
          exact hje
        have hdone_split : ∀ d, d ∈ done3 →
            ∀ i, 2 ≤ i →
            EmittedBefore g ([Event.preambleEv, Event.variablesEv] ++ body ++ [Event.outputsEv])
              i d ∨ ∃ j, j < body.length ∧ ∃ e, body.get? j = some e ∧ e.node? = some d := by
          intro d hd i hi
          rw [hdon] at hd
          rcases List.mem_append.mp hd with hd | hd
          · exact Or.inl (Or.inl ⟨hwf.1 d hd, 1, by omega, hvarget⟩)
          · exact Or.inr (mem_payloads_index hd)
        have hfull : payloads ([Event.preambleEv, Event.variablesEv] ++ body ++
            [Event.outputsEv]) = payloads body := by
          simp [payloads, List.filterMap_append, Event.node?]
        refine ⟨?_, ?_, ?_, ?_⟩
        · intro i e n hget hnode d hd
          rcases i with _ | _ | j
          · simp at hget
            rw [← hget] at hnode
            simp [Event.node?] at hnode
          · simp at hget
            rw [← hget] at hnode
            simp [Event.node?] at hnode
          · simp only [List.cons_append, List.nil_append, List.get?_cons_succ] at hget
            by_cases hj : j < body.length
            · rw [List.get?_append hj] at hget
              rcases horder j e n hget hnode d hd with hdv | hdp
              · exact Or.inl ⟨hwf.1 d hdv, 1, by omega, hvarget⟩
              · rcases mem_payloads_take hdp with ⟨j', hj', e', hge', hne'⟩
                exact Or.inr ⟨j' + 2, by omega, e',
                  hbodyget j' e' (lt_trans hj' hj) hge', hne'⟩
            · push_neg at hj
              rw [List.get?_append_right hj] at hget
              cases hsub : j - body.length with
              | zero =>
                rw [hsub] at hget
                simp at hget
                rw [← hget] at hnode
                simp [Event.node?] at hnode
              | succ m =>
                rw [hsub] at hget
                simp at hget
        · intro n hn
          have hkn : g.kind n = some NodeKind.localKind ∨
              g.kind n = some NodeKind.resourceKind := by
            rcases hn with hn | hn
            · exact Or.inl (hwf.2.1 n hn)
            · exact Or.inr (hwf.2.2.1 n hn)
          have hnv : n ∉ g.vars := by
            intro hc
            have := hwf.1 n hc
            rcases hkn with hk | hk <;> rw [hk] at this <;> simp at this
          have hnd : n ∈ done3 := hmem n hn
          rw [hdon] at hnd
          have hnp : n ∈ payloads body := by
            rcases List.mem_append.mp hnd with hc | hc
            · exact absurd hc hnv
            · exact hc
          rw [filter_node_count, hfull]
          exact List.count_eq_one_of_mem hnodup hnp
        · intro n
          rw [filter_node_count, hfull]
          exact List.nodup_iff_count_le_one.mp hnodup n
        · refine ⟨body.length + 2, ?_, by simp, ?_⟩
          · simp only [List.cons_append, List.nil_append, List.get?_cons_succ]
            exact List.get?_concat_length body Event.outputsEv
          · intro o ho d hd
            rcases hdone_split d (houts o ho d hd) (body.length + 2) (by omega) with h | h
            · exact h
            · rcases h with ⟨j, hj, e, hje, hne⟩
              exact Or.inr ⟨j + 2, by omega, e, hbodyget j e hj hje, hne⟩

/-- Witness for C1: a successful concrete run, with its trace proved
topologically sound through the theorem. -/
theorem generate_topologically_sound_witness :
    generate 5 egW = Except.ok [Event.preambleEv, Event.variablesEv,
      Event.resourceEv 1, Event.resourceEv 2, Event.outputsEv] ∧
    TopoSound egW [Event.preambleEv, Event.variablesEv,
      Event.resourceEv 1, Event.resourceEv 2, Event.outputsEv] := by
  have hrun : generate 5 egW = Except.ok [Event.preambleEv, Event.variablesEv,
      Event.resourceEv 1, Event.resourceEv 2, Event.outputsEv] := rfl
  have hrank : egW.RankedBy (fun n => n) := by
    intro x y h
    rcases x with _ | _ | _ | _ | x
    · simp [egW] at h
    · simp [egW] at h
    · simp [egW] at h
      subst h
      decide
    · simp [egW] at h
      subst h
      decide
    · simp [egW] at h
  exact ⟨hrun, generate_topologically_sound 5 egW (fun n => n) _
    ⟨by decide, by decide, by decide, by decide⟩ hrank hrun⟩

/-- C4: once the locals/resources phase has completed with a given done-set,
a dependency of some output that is missing from that done-set makes
`generate` fail with the unsatisfied-dependency error; no hook-invocation
trace is produced, so in particular the outputs hook (the trace's trailing
event) is never invoked. -/
theorem generate_unsatisfied_output (fuel : Nat) (g : EGraph)
    (body : List Event) (done : List Nat)
    (hprov : (g.providerDeps.any fun pd =>
      pd.any fun d => g.kind d != some NodeKind.variableKind) = false)
    (hnodes : generateNodes g fuel = .ok (body, done))
    (o d : Nat) (ho : o ∈ g.outputs) (hd : d ∈ g.deps o) (hnd : d ∉ done) :
    (∃ d' : Nat, generate fuel g =
      .error ("output has unsatisfied dependency " ++ toString d')) ∧
    ∀ evs, generate fuel g ≠ .ok evs := by
  rcases checkOutputs_some g.outputs done o d ho hd hnd with ⟨d', hchk⟩
  have hgen : generate fuel g =
      .error ("output has unsatisfied dependency " ++ toString d') := by
    unfold generate
    rw [if_neg (by simp [hprov]), hnodes]
    show (match checkOutputs g g.outputs done with
      | some d => Except.error ("output has unsatisfied dependency " ++ toString d)
      | none => Except.ok ([Event.preambleEv, Event.variablesEv] ++ body ++
          [Event.outputsEv])) =
      Except.error ("output has unsatisfied dependency " ++ toString d')
    rw [hchk]
  exact ⟨⟨d', hgen⟩, fun evs hc => by rw [hgen] at hc; cases hc⟩

/-- Witness for C4: the concrete dangling-output graph fails with the
unsatisfied-dependency error. -/
theorem generate_unsatisfied_output_witness :
    generate 1 egW4 = Except.error "output has unsatisfied dependency 2" ∧
    ∀ evs, generate 1 egW4 ≠ Except.ok evs :=
  ⟨rfl, (generate_unsatisfied_output 1 egW4 [] [] rfl rfl 1 2 (by decide)
    (by decide) (by decide)).2⟩

/-- C8: the schema-triple derivations are total: on the all-absent triple,
`propertySchemas` and `elemSchemas` yield the all-absent triple (for every key),
and the lattice type of the all-absent triple is `Unknown`. -/
theorem schema_accessors_total_on_absent :
    (∀ key : String, schemas.propertySchemas ⟨none, none, none⟩ key = ⟨none, none, none⟩) ∧
    schemas.elemSchemas ⟨none, none, none⟩ = ⟨none, none, none⟩ ∧
    schemas.astType ⟨none, none, none⟩ = TType.unknown := by
  refine ⟨fun key => rfl, rfl, rfl⟩

/-- C3: `coerceProperty` is the identity when the inferred type equals the
destination type or the inferred type is not `String`; a string being forced
into `Bool` collapses the literal texts to bare booleans and wraps any other
text as an equality test against the string "true"; a string forced into a
numeric destination is wrapped in a string-to-number parse; every other
destination leaves the text unchanged. -/
theorem coerceProperty_spec (v : String) (t p : TType) :
    (t = p ∨ t ≠ TType.string → coerceProperty v t p = v) ∧
    (t = TType.string → p = TType.bool →
      (v = "\"true\"" → coerceProperty v t p = "true") ∧
      (v = "\"false\"" → coerceProperty v t p = "false") ∧
      (v ≠ "\"true\"" → v ≠ "\"false\"" →
        coerceProperty v t p = "(" ++ v ++ " === \"true\")")) ∧
    (t = TType.string → (p = TType.int ∨ p = TType.float) →
      coerceProperty v t p = "Number.parseFloat(" ++ v ++ ")") ∧
    (t = TType.string → p ≠ TType.bool → p ≠ TType.int → p ≠ TType.float →
      coerceProperty v t p = v) := by
  refine ⟨fun h => ?_, fun ht hp => ?_, fun ht hp => ?_, fun ht hb hi hf => ?_⟩
  · unfold coerceProperty
    rw [if_pos h]
  · subst ht; subst hp
    refine ⟨fun hv => ?_, fun hv => ?_, fun hv1 hv2 => ?_⟩
    · subst hv; rfl
    · subst hv; rfl
    · unfold coerceProperty
      rw [if_neg (by simp)]
      simp [hv1, hv2]
  · subst ht
    rcases hp with hp | hp <;> subst hp <;>
      · unfold coerceProperty
        rw [if_neg (by simp)]
  · subst ht
    unfold coerceProperty
    by_cases hps : TType.string = p
    · rw [if_pos (Or.inl hps)]
    · rw [if_neg (by simp [hps])]
      cases p <;> simp_all

/-- Witness for C3: concrete instances of each coercion rule. -/
theorem coerceProperty_spec_witness :
    coerceProperty "x" TType.bool TType.bool = "x" ∧
    coerceProperty "\"true\"" TType.string TType.bool = "true" ∧
    coerceProperty "\"false\"" TType.string TType.bool = "false" ∧
    coerceProperty "y" TType.string TType.bool = "(y === \"true\")" ∧
    coerceProperty "z" TType.string TType.float = "Number.parseFloat(z)" ∧
    coerceProperty "w" TType.string TType.list = "w" :=
  ⟨(coerceProperty_spec "x" TType.bool TType.bool).1 (Or.inl rfl),
   ((coerceProperty_spec "\"true\"" TType.string TType.bool).2.1 rfl rfl).1 rfl,
   ((coerceProperty_spec "\"false\"" TType.string TType.bool).2.1 rfl rfl).2.1 rfl,
   ((coerceProperty_spec "y" TType.string TType.bool).2.1 rfl rfl).2.2
     (by decide) (by decide),
   (coerceProperty_spec "z" TType.string TType.float).2.2.1 rfl (Or.inr rfl),
   (coerceProperty_spec "w" TType.string TType.list).2.2.2 rfl
     (by decide) (by decide) (by decide)⟩

/-- C2: under the collapse-to-scalar signal, the empty sequence serializes to
the absent sentinel of unknown type, a singleton serializes exactly as its
element serialized directly with the element schema, and two or more elements
fail with the shape-violation error. -/
theorem computeSliceProperty_collapse (g : NodeGenerator) (indent : String) (sch : schemas)
    (h : IsMaxItemsOne sch.tf sch.pulumi = true) :
    computeSliceProperty g [] indent sch = some ⟨"undefined", TType.unknown, none⟩ ∧
    (∀ v, computeSliceProperty g [v] indent sch =
      computeProperty g v indent sch.elemSchemas) ∧
    (∀ v1 v2 rest, computeSliceProperty g (v1 :: v2 :: rest) indent sch =
      some ⟨"", TType.invalid, some "expected at most one item in list"⟩) := by
  refine ⟨?_, fun v => ?_, fun v1 v2 rest => ?_⟩ <;>
    simp [computeSliceProperty, h]

/-- Witness for C2: the three collapse behaviors at a concrete schema pair. -/
theorem computeSliceProperty_collapse_witness :
    IsMaxItemsOne schW2.tf schW2.pulumi = true ∧
    computeSliceProperty genW [] "" schW2 = some ⟨"undefined", TType.unknown, none⟩ ∧
    computeSliceProperty genW [Value.str "x"] "" schW2 =
      computeProperty genW (Value.str "x") "" schW2.elemSchemas ∧
    computeSliceProperty genW [Value.bool true, Value.bool false] "" schW2 =
      some ⟨"", TType.invalid, some "expected at most one item in list"⟩ :=
  ⟨rfl, (computeSliceProperty_collapse genW "" schW2 rfl).1,
    (computeSliceProperty_collapse genW "" schW2 rfl).2.1 (Value.str "x"),
    (computeSliceProperty_collapse genW "" schW2 rfl).2.2 (Value.bool true)
      (Value.bool false) []⟩

/-- C10: a raw value that is no expression node and of none of the supported
dynamic kinds trips the serializer's assertion (modelled as the aborting
result), so no error value is ever returned for it — the error-return after
the assertion is unreachable. -/
theorem computeProperty_unsupported_kind (g : NodeGenerator) (kindName indent : String)
    (sch : schemas) :
    computeProperty g (Value.other kindName) indent sch = none := by
  simp [computeProperty]

/-- The compiler's field loop computes exactly the spec-side path names and
final schema triple. -/
theorem walkResourceFields_spec :
    ∀ (es : List String) (sch : schemas),
      walkResourceFields sch es = (specPathNames sch es, specPathSchemas sch es) := by
  intro es
  induction es with
  | nil => intro sch; rfl
  | cons e rest ih =>
    intro sch
    simp only [walkResourceFields, specPathNames, specPathSchemas, ih]

/-- C5 (amended): for a non-multi resource reference whose resource exists in
the graph (and whose provider metadata, when present, contains the resource
type), the compiler renders the generated binding name followed by the
dot-joined path translated through the registry's standard translation —
ignoring any target-override explicit name — and reports the lattice type of
the final schema triple of the walk. -/
theorem walkVariableAccess_resource_path (g : CGraph) (typ name fld : String)
    (rnode : ResourceNodeC)
    (hres : lookupKey g.resources (typ ++ "." ++ name) = some rnode) :
    (rnode.providerInfo = none →
      walkVariableAccess g (.resourceVar false typ name fld) =
        some ⟨resName typ name ++ "." ++ String.intercalate "."
            (specPathNames ⟨none, none, none⟩ (splitOnChar '.' fld)),
          (specPathSchemas ⟨none, none, none⟩ (splitOnChar '.' fld)).astType, none⟩) ∧
    (∀ info resInfo, rnode.providerInfo = some info →
      lookupKey info.resources typ = some resInfo →
      walkVariableAccess g (.resourceVar false typ name fld) =
        some ⟨resName typ name ++ "." ++ String.intercalate "."
            (specPathNames ⟨none, lookupKey info.resourcesMap typ,
              some (SchemaInfo.mk "" resInfo.fields none none)⟩ (splitOnChar '.' fld)),
          (specPathSchemas ⟨none, lookupKey info.resourcesMap typ,
            some (SchemaInfo.mk "" resInfo.fields none none)⟩
              (splitOnChar '.' fld)).astType, none⟩) := by
  constructor
  · intro hinfo
    simp only [walkVariableAccess, Bool.false_eq_true, if_false, hres, hinfo,
      walkResourceFields_spec]
  · intro info resInfo hinfo hresInfo
    simp only [walkVariableAccess, Bool.false_eq_true, if_false, hres, hinfo, hresInfo,
      walkResourceFields_spec]

/-- Counterexample to C5 as stated: the walked schema triple for field "foo"
carries a target-override explicit name "bar" — which the §4.3 translation
rule (`tsName`) would use verbatim — yet the compiler renders the untranslated
registry name "foo", so the override is not used. -/
theorem walkVariableAccess_override_ignored :
    walkVariableAccess cgC5 (.resourceVar false "aws_instance" "my" "foo") =
      some ⟨"aws_instance_my.foo", TType.unknown, none⟩ ∧
    (schemas.propertySchemas
        ⟨none, none, some (SchemaInfo.mk ""
          [("foo", SchemaInfo.mk "bar" [] none none)] none none)⟩ "foo").pulumi =
      some (SchemaInfo.mk "bar" [] none none) ∧
    tsName "foo" none (some (SchemaInfo.mk "bar" [] none none)) false = "bar" ∧
    "aws_instance_my.foo" ≠ "aws_instance_my.bar" :=
  ⟨rfl, rfl, rfl, by decide⟩

/-- Witness for the amended C5: the counterexample graph's reference rendered
through the theorem. -/
theorem walkVariableAccess_resource_path_witness :
    lookupKey cgC5.resources ("aws_instance" ++ "." ++ "my") =
      some ⟨some ⟨[("aws_instance", ⟨"", [("foo", SchemaInfo.mk "bar" [] none none)]⟩)], []⟩⟩ ∧
    walkVariableAccess cgC5 (.resourceVar false "aws_instance" "my" "foo") =
      some ⟨resName "aws_instance" "my" ++ "." ++ String.intercalate "."
          (specPathNames ⟨none, lookupKey ([] : List (String × Resource)) "aws_instance",
            some (SchemaInfo.mk "" [("foo", SchemaInfo.mk "bar" [] none none)] none none)⟩
            (splitOnChar '.' "foo")),
        (specPathSchemas ⟨none, lookupKey ([] : List (String × Resource)) "aws_instance",
          some (SchemaInfo.mk "" [("foo", SchemaInfo.mk "bar" [] none none)] none none)⟩
            (splitOnChar '.' "foo")).astType, none⟩ :=
  ⟨rfl, (walkVariableAccess_resource_path cgC5 "aws_instance" "my" "foo" _ rfl).2
    ⟨[("aws_instance", ⟨"", [("foo", SchemaInfo.mk "bar" [] none none)]⟩)], []⟩
    ⟨"", [("foo", SchemaInfo.mk "bar" [] none none)]⟩ rfl rfl⟩

/-- C6: a declared-variable reference rejects element qualification, fails on
an unknown variable, and otherwise renders the translated name with result
type string — unless the variable's default is present and not a string, in
which case the type is unknown. -/
theorem walkVariableAccess_userVar_spec (g : CGraph) (name elem : String) :
    (elem ≠ "" → walkVariableAccess g (.userVar name elem) =
      some ⟨"", TType.invalid, some "NYI: user variable elements"⟩) ∧
    (elem = "" → lookupKey g.vars name = none →
      walkVariableAccess g (.userVar name elem) =
        some ⟨"", TType.invalid, some ("unknown variable " ++ name)⟩) ∧
    (∀ vn, elem = "" → lookupKey g.vars name = some vn →
      (∀ dv, vn.defaultValue = some dv → dv.isStringValue = true) →
      walkVariableAccess g (.userVar name elem) =
        some ⟨terraformToPulumiName name none false, TType.string, none⟩) ∧
    (∀ vn dv, elem = "" → lookupKey g.vars name = some vn →
      vn.defaultValue = some dv → dv.isStringValue = false →
      walkVariableAccess g (.userVar name elem) =
        some ⟨terraformToPulumiName name none false, TType.unknown, none⟩) := by
  refine ⟨fun he => ?_, fun he hl => ?_, fun vn he hl hstr => ?_, fun vn dv he hl hdv => ?_⟩
  · simp only [walkVariableAccess, if_pos he]
  · subst he
    simp only [walkVariableAccess]
    rw [if_neg (by simp), hl]
  · subst he
    simp only [walkVariableAccess]
    rw [if_neg (by simp), hl]
    cases hdv : vn.defaultValue with
    | none => simp [hdv]
    | some dv =>
      have := hstr dv hdv
      cases dv <;> simp_all [Value.isStringValue]
  · subst he
    simp only [walkVariableAccess]
    rw [if_neg (by simp), hl]
    cases dv <;> simp_all [Value.isStringValue]

/-- Witness for C6: each branch of the declared-variable rule at concrete
inputs. -/
theorem walkVariableAccess_userVar_spec_witness :
    walkVariableAccess cgC6 (.userVar "no_default" "0") =
      some ⟨"", TType.invalid, some "NYI: user variable elements"⟩ ∧
    walkVariableAccess cgC6 (.userVar "missing" "") =
      some ⟨"", TType.invalid, some "unknown variable missing"⟩ ∧
    walkVariableAccess cgC6 (.userVar "no_default" "") =
      some ⟨"noDefault", TType.string, none⟩ ∧
    walkVariableAccess cgC6 (.userVar "num_default" "") =
      some ⟨"numDefault", TType.unknown, none⟩ :=
  ⟨(walkVariableAccess_userVar_spec cgC6 "no_default" "0").1 (by decide),
   (walkVariableAccess_userVar_spec cgC6 "missing" "").2.1 rfl rfl,
   (walkVariableAccess_userVar_spec cgC6 "no_default" "").2.2.1 ⟨none⟩ rfl rfl
     (fun dv hdv => by cases hdv),
   (walkVariableAccess_userVar_spec cgC6 "num_default" "").2.2.2 ⟨some (Value.int 5)⟩
     (Value.int 5) rfl rfl rfl rfl⟩

/-- Association-list indexing is invariant under reordering when the keys are
unique. -/
theorem lookupKey_perm {α : Type} {m m' : List (String × α)}
    (hperm : m.Perm m') : (m.map Prod.fst).Nodup → ∀ k,
      lookupKey m k = lookupKey m' k := by
  induction hperm with
  | nil => intro _ k; rfl
  | cons x h ih =>
    intro hnd k
    obtain ⟨kx, vx⟩ := x
    simp only [lookupKey]
    split
    · rfl
    · simp only [List.map_cons, List.nodup_cons] at hnd
      exact ih hnd.2 k
  | swap x y l =>
    intro hnd k
    obtain ⟨kx, vx⟩ := x
    obtain ⟨ky, vy⟩ := y
    simp only [List.map_cons, List.nodup_cons, List.mem_cons] at hnd
    simp only [lookupKey]
    by_cases h1 : ky == k <;> by_cases h2 : kx == k
    · exfalso
      have hkk : ky = kx := (eq_of_beq h1).trans (eq_of_beq h2).symm
      simp_all
    · simp [h1, h2]
    · simp [h1, h2]
    · simp [h1, h2]
  | trans h1 h2 ih1 ih2 =>
    intro hnd k
    have hnd2 := ((h1.map Prod.fst).nodup_iff).mp hnd
    exact (ih1 hnd k).trans (ih2 hnd2 k)

/-- The emitted key sequence is sorted. -/
theorem sortedKeys_sorted (m : List (String × Value)) :
    (sortedKeys m).Sorted (· ≤ ·) :=
  List.sorted_mergeSort' _

/-- The emitted key sequence depends only on the key multiset, not on the
mapping's iteration order. -/
theorem sortedKeys_perm_eq {m m' : List (String × Value)} (hperm : m.Perm m') :
    sortedKeys m = sortedKeys m' := by
  refine List.eq_of_perm_of_sorted ?_ (sortedKeys_sorted m) (sortedKeys_sorted m')
  exact ((List.mergeSort_perm _ _).trans (hperm.map Prod.fst)).trans
    (List.mergeSort_perm _ _).symm

/-- The key loop on no keys. -/
theorem computeMapEntries_nil (g : NodeGenerator) (m : List (String × Value))
    (indent : String) (sch : schemas) :
    computeMapEntries g m [] indent sch = some (Except.ok "") := by
  simp only [computeMapEntries]

/-- The key loop on one more key, restated without the dependent match. -/
theorem computeMapEntries_cons (g : NodeGenerator) (m : List (String × Value))
    (k : String) (rest : List String) (indent : String) (sch : schemas) :
    computeMapEntries g m (k :: rest) indent sch =
      match lookupKey m k with
      | none => none
      | some v =>
        match computeProperty g v (indent ++ "    ") (sch.propertySchemas k) with
        | none => none
        | some r =>
          if r.err.isSome = true then some (Except.error (r.err.getD ""))
          else
            match computeMapEntries g m rest indent sch with
            | none => none
            | some (Except.error e) => some (Except.error e)
            | some (Except.ok restStr) =>
              some (Except.ok ("\n" ++ (indent ++ "    ") ++
                tsName k (sch.propertySchemas k).tf (sch.propertySchemas k).pulumi true ++
                ": " ++ coerceProperty r.text r.typ (sch.propertySchemas k).astType ++
                "," ++ restStr)) := by
  simp only [computeMapEntries]
  split
  · rename_i hx
    rw [hx]
  · rename_i v hx
    rw [hx]

/-- The key loop reads the mapping only through indexing, so mappings with
equal lookups serialize identically. -/
theorem computeMapEntries_congr (g : NodeGenerator) (m m' : List (String × Value))
    (hlk : ∀ k, lookupKey m k = lookupKey m' k) :
    ∀ (keys : List String) (indent : String) (sch : schemas),
      computeMapEntries g m keys indent sch = computeMapEntries g m' keys indent sch := by
  intro keys
  induction keys with
  | nil =>
    intro indent sch
    rw [computeMapEntries_nil, computeMapEntries_nil]
  | cons k rest ih =>
    intro indent sch
    rw [computeMapEntries_cons, computeMapEntries_cons, hlk k, ih indent sch]

/-- C7: serialization of a mapping is deterministic — two association-list
representations of the same mapping (equal up to reordering, keys unique)
serialize byte-identically, and the keys are always emitted in sorted order. -/
theorem computeMapProperty_deterministic (g : NodeGenerator) (indent : String) (sch : schemas)
    (m m' : List (String × Value)) (hnd : (m.map Prod.fst).Nodup) (hperm : m.Perm m') :
    computeMapProperty g m indent sch = computeMapProperty g m' indent sch ∧
    (sortedKeys m).Sorted (· ≤ ·) := by
  refine ⟨?_, sortedKeys_sorted m⟩
  simp only [computeMapProperty]
  rw [sortedKeys_perm_eq hperm,
    computeMapEntries_congr g m m' (lookupKey_perm hperm hnd) (sortedKeys m') indent sch]

/-- Witness for C7: the concrete two-key mapping serializes identically in
either order, with sorted keys. -/
theorem computeMapProperty_deterministic_witness :
    (mW7.map Prod.fst).Nodup ∧ mW7.Perm mW7r ∧
    computeMapProperty genW mW7 "" ⟨none, none, none⟩ =
      computeMapProperty genW mW7r "" ⟨none, none, none⟩ ∧
    (sortedKeys mW7).Sorted (· ≤ ·) := by
  have hnd : (mW7.map Prod.fst).Nodup := by decide
  have hperm : mW7.Perm mW7r := List.Perm.swap _ _ _
  have h := computeMapProperty_deterministic genW "" ⟨none, none, none⟩ mW7 mW7r hnd hperm
  exact ⟨hnd, hperm, h.1, h.2⟩

/-- Every error result of `walkVariableAccess` carries empty text and the
invalid type. -/
theorem walkVariableAccess_err_shape (g : CGraph) (v : InterpolatedVariable) (r : CRes)
    (h : walkVariableAccess g v = some r) (herr : r.err.isSome = true) :
    r.text = "" ∧ r.typ = TType.invalid := by
  unfold walkVariableAccess at h
  cases v <;> repeat' split at h
  all_goals cases h <;> first | exact ⟨rfl, rfl⟩ | simp_all

/-- Every error result of `walkNode` carries empty text and the invalid type:
each compiler method rebuilds the `("", Invalid, err)` triple on every error
path. -/
theorem walkNode_err_shape (g : CGraph) :
    ∀ (n : HilNode) (r : CRes), walkNode g n = some r → r.err.isSome = true →
      r.text = "" ∧ r.typ = TType.invalid := by
  intro n r h herr
  cases n with
  | arithmetic op exprs =>
    simp only [walkNode, walkArithmetic] at h
    repeat' split at h
    all_goals cases h <;> first | exact ⟨rfl, rfl⟩ | simp_all
  | call fn args =>
    simp only [walkNode, walkCall] at h
    repeat' split at h
    all_goals cases h <;> first | exact ⟨rfl, rfl⟩ | simp_all
  | conditional c t f =>
    simp only [walkNode, walkConditional] at h
    repeat' split at h
    all_goals cases h <;> first | exact ⟨rfl, rfl⟩ | simp_all
  | index t k =>
    simp only [walkNode, walkIndex] at h
    repeat' split at h
    all_goals cases h <;> first | exact ⟨rfl, rfl⟩ | simp_all
  | literal ty v =>
    simp only [walkNode] at h
    cases h
    cases ty <;> simp_all [walkLiteral]
  | output exprs =>
    simp only [walkNode, walkOutput] at h
    repeat' split at h
    all_goals cases h <;> first | exact ⟨rfl, rfl⟩ | simp_all
  | variableAccess v =>
    simp only [walkNode] at h
    exact walkVariableAccess_err_shape g v r h herr

/-- Every error result of `computeMapProperty` carries empty text and the
invalid type. -/
theorem computeMapProperty_err_shape (g : NodeGenerator) (m : List (String × Value))
    (indent : String) (sch : schemas) (r : CRes)
    (h : computeMapProperty g m indent sch = some r) (herr : r.err.isSome = true) :
    r.text = "" ∧ r.typ = TType.invalid := by
  simp only [computeMapProperty] at h
  repeat' split at h
  all_goals cases h <;> first | exact ⟨rfl, rfl⟩ | simp_all

/-- Error results of the serializer carry empty text and the invalid type, by
strong induction on the size of the value (the collapse-to-scalar branch of a
singleton sequence returns its element's result unchanged). -/
theorem compute_err_shape_aux (g : NodeGenerator) :
    ∀ fuel : Nat,
      (∀ v : Value, sizeOf v ≤ fuel → ∀ (indent : String) (sch : schemas) (r : CRes),
        computeProperty g v indent sch = some r → r.err.isSome = true →
        r.text = "" ∧ r.typ = TType.invalid) ∧
      (∀ s : List Value, sizeOf s ≤ fuel → ∀ (indent : String) (sch : schemas) (r : CRes),
        computeSliceProperty g s indent sch = some r → r.err.isSome = true →
        r.text = "" ∧ r.typ = TType.invalid) := by
  intro fuel
  induction fuel with
  | zero =>
    constructor
    · intro v hv
      exfalso
      cases v <;> simp at hv <;> omega
    · intro s hs
      exfalso
      cases s <;> simp at hs <;> omega
  | succ fuel ih =>
    constructor
    · intro v hv indent sch r h herr
      cases v with
      | hil n =>
        exact walkNode_err_shape g.graph n r (by simpa [computeProperty, computeHILProperty] using h) herr
      | bool b =>
        rw [computeProperty] at h
        cases h
        simp_all
      | int i =>
        rw [computeProperty] at h
        cases h
        simp_all
      | float f =>
        rw [computeProperty] at h
        cases h
        simp_all
      | str s =>
        rw [computeProperty] at h
        cases h
        simp_all
      | slice elems =>
        rw [computeProperty] at h
        refine ih.2 elems ?_ indent sch r h herr
        simp at hv
        omega
      | map entries =>
        rw [computeProperty] at h
        exact computeMapProperty_err_shape g entries indent sch r h herr
      | other kindName =>
        rw [computeProperty] at h
        cases h
    · intro s hs indent sch r h herr
      by_cases hmax : IsMaxItemsOne sch.tf sch.pulumi = true
      · cases s with
        | nil =>
          simp only [computeSliceProperty] at h
          rw [if_pos hmax] at h
          cases h
          simp_all
        | cons v rest =>
          cases rest with
          | nil =>
            simp only [computeSliceProperty] at h
            rw [if_pos hmax] at h
            refine ih.1 v ?_ indent sch.elemSchemas r h herr
            simp at hs
            omega
          | cons v2 rest2 =>
            simp only [computeSliceProperty] at h
            rw [if_pos hmax] at h
            cases h
            exact ⟨rfl, rfl⟩
      · cases s with
        | nil =>
          simp only [computeSliceProperty] at h
          rw [if_neg hmax] at h
          repeat' split at h
          all_goals cases h <;> first | exact ⟨rfl, rfl⟩ | simp_all
        | cons v rest =>
          cases rest with
          | nil =>
            simp only [computeSliceProperty] at h
            rw [if_neg hmax] at h
            repeat' split at h
            all_goals cases h <;> first | exact ⟨rfl, rfl⟩ | simp_all
          | cons v2 rest2 =>
            simp only [computeSliceProperty] at h
            rw [if_neg hmax] at h
            repeat' split at h
            all_goals cases h <;> first | exact ⟨rfl, rfl⟩ | simp_all

/-- C9: error results are uniform across the expression compiler and the
value serializer — whenever compilation of an expression node, a sequence or a
mapping returns an error, the accompanying text is the empty string and the
type is Invalid. -/
theorem compiler_error_results_uniform (g : NodeGenerator) :
    (∀ (n : HilNode) (r : CRes), walkNode g.graph n = some r → r.err.isSome = true →
      r.text = "" ∧ r.typ = TType.invalid) ∧
    (∀ (s : List Value) (indent : String) (sch : schemas) (r : CRes),
      computeSliceProperty g s indent sch = some r → r.err.isSome = true →
      r.text = "" ∧ r.typ = TType.invalid) ∧
    (∀ (m : List (String × Value)) (indent : String) (sch : schemas) (r : CRes),
      computeMapProperty g m indent sch = some r → r.err.isSome = true →
      r.text = "" ∧ r.typ = TType.invalid) :=
  ⟨fun n r h herr => walkNode_err_shape g.graph n r h herr,
   fun s indent sch r h herr =>
     (compute_err_shape_aux g (sizeOf s)).2 s (le_refl _) indent sch r h herr,
   fun m indent sch r h herr =>
     computeMapProperty_err_shape g m indent sch r h herr⟩

/-- Witness for C9: an erroring expression node, sequence and mapping, each
returning empty text and the invalid type by the theorem. -/
theorem compiler_error_results_uniform_witness :
    walkNode genW.graph hilErrW = some ⟨"", TType.invalid, some "NYI: count variables"⟩ ∧
    computeSliceProperty genW [Value.bool true, Value.bool false] "" schW2 =
      some ⟨"", TType.invalid, some "expected at most one item in list"⟩ ∧
    computeMapProperty genW mW9 "" ⟨none, none, none⟩ =
      some ⟨"", TType.invalid, some "NYI: count variables"⟩ ∧
    ((⟨"", TType.invalid, some "NYI: count variables"⟩ : CRes).text = "" ∧
      (⟨"", TType.invalid, some "NYI: count variables"⟩ : CRes).typ = TType.invalid) ∧
    ((⟨"", TType.invalid, some "expected at most one item in list"⟩ : CRes).text = "" ∧
      (⟨"", TType.invalid, some "expected at most one item in list"⟩ : CRes).typ =
        TType.invalid) := by
  have h1 : walkNode genW.graph hilErrW =
      some ⟨"", TType.invalid, some "NYI: count variables"⟩ := by
    simp only [walkNode, hilErrW]
    rfl
  have h2 : computeSliceProperty genW [Value.bool true, Value.bool false] "" schW2 =
      some ⟨"", TType.invalid, some "expected at most one item in list"⟩ := by
    have hmx : IsMaxItemsOne schW2.tf schW2.pulumi = true := rfl
    simp [computeSliceProperty, hmx]
  have hprop : computeProperty genW (Value.hil hilErrW) "    "
      (schemas.propertySchemas ⟨none, none, none⟩ "k") =
      some ⟨"", TType.invalid, some "NYI: count variables"⟩ := by
    simp only [computeProperty, computeHILProperty]
    exact h1
  have hsk : sortedKeys mW9 = ["k"] := by
    simp only [sortedKeys, mW9, List.map_cons, List.map_nil, List.mergeSort_singleton]
  have hlk : lookupKey mW9 "k" = some (Value.hil hilErrW) := rfl
  have hentries : computeMapEntries genW mW9 ["k"] "" ⟨none, none, none⟩ =
      some (Except.error "NYI: count variables") := by
    rw [computeMapEntries_cons]
    simp [hlk, hprop]
  have h3 : computeMapProperty genW mW9 "" ⟨none, none, none⟩ =
      some ⟨"", TType.invalid, some "NYI: count variables"⟩ := by
    simp only [computeMapProperty]
    rw [hsk, hentries]
  refine ⟨h1, h2, h3, ?_, ?_⟩
  · exact (compiler_error_results_uniform genW).1 hilErrW _ h1 rfl
  · exact (compiler_error_results_uniform genW).2.1 [Value.bool true, Value.bool false]
      "" schW2 _ h2 rfl


/-- Association-list indexing misses exactly the keys outside the key list. -/
theorem lookupKey_eq_none_iff {α : Type} (m : List (String × α)) (k : String) :
    lookupKey m k = none ↔ k ∉ m.map Prod.fst := by
  induction m with
  | nil => simp [lookupKey]
  | cons p rest ih =>
    obtain ⟨k1, v1⟩ := p
    simp only [lookupKey, List.map_cons, List.mem_cons]
    split
    · rename_i hbeq
      constructor
      · intro h; cases h
      · intro h
        exact absurd (Or.inl (eq_of_beq hbeq).symm) h
    · rename_i hbeq
      have hne : ¬ k = k1 := by
        intro h
        subst h
        simp at hbeq
      rw [ih]
      simp [hne]

/-- A key in the key list has a binding. -/
theorem lookupKey_isSome_of_mem {α : Type} {m : List (String × α)} {k : String}
    (h : k ∈ m.map Prod.fst) : ∃ v, lookupKey m k = some v := by
  cases hx : lookupKey m k with
  | none => exact absurd h ((lookupKey_eq_none_iff m k).mp hx)
  | some v => exact ⟨v, rfl⟩

/-- A found binding's key is in the key list. -/
theorem mem_of_lookupKey_some {α : Type} {m : List (String × α)} {k : String} {v : α}
    (h : lookupKey m k = some v) : k ∈ m.map Prod.fst := by
  by_contra hc
  rw [← lookupKey_eq_none_iff] at hc
  rw [h] at hc
  cases hc

/-- The emitted key sequence depends only on the key multiset. -/
theorem sortedKeys_keys_perm_eq {m m' : List (String × Value)}
    (hkeys : (m.map Prod.fst).Perm (m'.map Prod.fst)) : sortedKeys m = sortedKeys m' := by
  refine List.eq_of_perm_of_sorted ?_ (sortedKeys_sorted m) (sortedKeys_sorted m')
  exact ((List.mergeSort_perm _ _).trans hkeys).trans (List.mergeSort_perm _ _).symm

/-- Value equivalence is reflexive, by strong induction on size. -/
theorem valueEquiv_refl_aux :
    ∀ fuel : Nat,
      (∀ v : Value, sizeOf v ≤ fuel → ValueEquiv v v) ∧
      (∀ l : List Value, sizeOf l ≤ fuel → ValueListEquiv l l) ∧
      (∀ m : List (String × Value), sizeOf m ≤ fuel → ValueMapEquiv m m) := by
  intro fuel
  induction fuel with
  | zero =>
    refine ⟨fun v hv => ?_, fun l hl => ?_, fun m hm => ?_⟩
    · exfalso; cases v <;> simp at hv <;> omega
    · exfalso; cases l <;> simp at hl <;> omega
    · exfalso; cases m <;> simp at hm <;> omega
  | succ fuel ih =>
    refine ⟨fun v hv => ?_, fun l hl => ?_, fun m hm => ?_⟩
    · cases v with
      | bool b => exact .bool b
      | int i => exact .int i
      | float f => exact .float f
      | str s => exact .str s
      | hil n => exact .hil n
      | other k => exact .other k
      | slice l => exact .slice (ih.2.1 l (by simp at hv; omega))
      | map mm => exact .map (ih.2.2 mm (by simp at hv; omega))
    · cases l with
      | nil => exact .nil
      | cons v rest =>
        exact .cons (ih.1 v (by simp at hl; omega)) (ih.2.1 rest (by simp at hl; omega))
    · refine .mk (List.Perm.refl _) (fun k v v' h1 h2 => ?_)
      rw [h1] at h2
      injection h2 with hvv
      subst hvv
      have hsz := sizeOf_lookupKey m k v h1
      exact ih.1 v (by omega)

/-- Value equivalence is reflexive. -/
theorem valueEquiv_refl (v : Value) : ValueEquiv v v :=
  (valueEquiv_refl_aux (sizeOf v)).1 v (le_refl _)

/-- Reordering a unique-keyed association list yields an equivalent mapping. -/
theorem mapEquiv_of_perm {m m' : List (String × Value)}
    (hnd : (m.map Prod.fst).Nodup) (hperm : m.Perm m') : ValueMapEquiv m m' :=
  .mk (hperm.map Prod.fst) (fun k v v' h1 h2 => by
    rw [lookupKey_perm hperm hnd k, h2] at h1
    injection h1 with hvv
    subst hvv
    exact valueEquiv_refl _)

/-- The serializer maps equivalent values to identical results, by strong
induction on size: mapping iteration order never reaches the output. -/
theorem compute_equiv_aux (g : NodeGenerator) :
    ∀ fuel : Nat,
      (∀ v v' : Value, sizeOf v ≤ fuel → ValueEquiv v v' →
        ∀ (indent : String) (sch : schemas),
          computeProperty g v indent sch = computeProperty g v' indent sch) ∧
      (∀ l l' : List Value, sizeOf l ≤ fuel → ValueListEquiv l l' →
        (∀ (ei : String) (es : schemas),
          computeSliceElems g l ei es = computeSliceElems g l' ei es) ∧
        (∀ (indent : String) (sch : schemas),
          computeSliceProperty g l indent sch = computeSliceProperty g l' indent sch)) ∧
      (∀ m m' : List (String × Value), sizeOf m ≤ fuel → ValueMapEquiv m m' →
        ∀ (indent : String) (sch : schemas),
          computeMapProperty g m indent sch = computeMapProperty g m' indent sch) := by
  intro fuel
  induction fuel with
  | zero =>
    refine ⟨fun v v' hv => ?_, fun l l' hl => ?_, fun m m' hm => ?_⟩
    · exfalso; cases v <;> simp at hv <;> omega
    · exfalso; cases l <;> simp at hl <;> omega
    · exfalso; cases m <;> simp at hm <;> omega
  | succ fuel ih =>
    refine ⟨fun v v' hv hequiv => ?_, fun l l' hl hequiv => ?_, fun m m' hm hequiv => ?_⟩
    · cases hequiv with
      | bool b => intro indent sch; rfl
      | int i => intro indent sch; rfl
      | float f => intro indent sch; rfl
      | str s => intro indent sch; rfl
      | hil n => intro indent sch; rfl
      | other k => intro indent sch; rfl
      | slice hml =>
        rename_i l l'
        intro indent sch
        simp only [computeProperty]
        exact (ih.2.1 l l' (by simp at hv; omega) hml).2 indent sch
      | map hmm =>
        rename_i mm mm'
        intro indent sch
        simp only [computeProperty]
        exact ih.2.2 mm mm' (by simp at hv; omega) hmm indent sch
    · cases hequiv with
      | nil => exact ⟨fun ei es => rfl, fun indent sch => rfl⟩
      | cons hv1 hrest =>
        rename_i v v' rest rest'
        have hvf : sizeOf v ≤ fuel := by simp at hl; omega
        have hrf : sizeOf rest ≤ fuel := by simp at hl; omega
        have helems : ∀ (ei : String) (es : schemas),
            computeSliceElems g (v :: rest) ei es =
              computeSliceElems g (v' :: rest') ei es := by
          intro ei es
          have h1 := ih.1 v v' hvf hv1 ei es
          have h2 := (ih.2.1 rest rest' hrf hrest).1 ei es
          simp only [computeSliceElems, h1, h2]
        refine ⟨helems, fun indent sch => ?_⟩
        by_cases hmax : IsMaxItemsOne sch.tf sch.pulumi = true
        · cases hrest with
          | nil =>
            simp only [computeSliceProperty]
            rw [if_pos hmax, if_pos hmax]
            exact ih.1 v v' hvf hv1 indent sch.elemSchemas
          | cons hv2 hrest2 =>
            simp only [computeSliceProperty]
            rw [if_pos hmax, if_pos hmax]
        · cases hrest with
          | nil =>
            simp only [computeSliceProperty]
            rw [if_neg hmax, if_neg hmax, helems]
          | cons hv2 hrest2 =>
            simp only [computeSliceProperty]
            rw [if_neg hmax, if_neg hmax, helems]
    · cases hequiv with
      | mk hkeys hpt =>
        intro indent sch
        have hsk : sortedKeys m = sortedKeys m' := sortedKeys_keys_perm_eq hkeys
        have hentries : ∀ ks : List String,
            computeMapEntries g m ks indent sch = computeMapEntries g m' ks indent sch := by
          intro ks
          induction ks with
          | nil => rw [computeMapEntries_nil, computeMapEntries_nil]
          | cons k rest ihk =>
            rw [computeMapEntries_cons, computeMapEntries_cons]
            cases hx : lookupKey m k with
            | none =>
              have hx2 : lookupKey m' k = none := by
                rw [lookupKey_eq_none_iff] at hx ⊢
                intro hc
                exact hx (hkeys.mem_iff.mpr hc)
              rw [hx2]
            | some v =>
              obtain ⟨v', hx2⟩ :=
                lookupKey_isSome_of_mem (hkeys.mem_iff.mp (mem_of_lookupKey_some hx))
              have hsz := sizeOf_lookupKey m k v hx
              have hval := ih.1 v v' (by omega) (hpt k v v' hx hx2)
                (indent ++ "    ") (sch.propertySchemas k)
              rw [hx2]
              simp only [hval, ihk]
        simp only [computeMapProperty]
        rw [hsk, hentries (sortedKeys m')]

/-- C7: serialization is deterministic — any two representations of the same
value, with the mappings at every nesting level equal up to iteration order,
serialize to byte-identical text; reordering a unique-keyed mapping leaves
its serialization unchanged; and mapping keys are always emitted in sorted
order. -/
theorem serialization_deterministic (g : NodeGenerator) :
    (∀ v v' : Value, ValueEquiv v v' → ∀ (indent : String) (sch : schemas),
      computeProperty g v indent sch = computeProperty g v' indent sch) ∧
    (∀ m m' : List (String × Value), (m.map Prod.fst).Nodup → m.Perm m' →
      ∀ (indent : String) (sch : schemas),
        computeMapProperty g m indent sch = computeMapProperty g m' indent sch) ∧
    (∀ m : List (String × Value), (sortedKeys m).Sorted (· ≤ ·)) :=
  ⟨fun v v' hequiv indent sch =>
    (compute_equiv_aux g (sizeOf v)).1 v v' (le_refl _) hequiv indent sch,
   fun m m' hnd hperm indent sch =>
    (compute_equiv_aux g (sizeOf m)).2.2 m m' (le_refl _)
      (mapEquiv_of_perm hnd hperm) indent sch,
   fun m => sortedKeys_sorted m⟩

/-- Witness for C7: a concrete two-key mapping in two iteration orders is an
equivalent value and serializes identically, with sorted keys. -/
theorem serialization_deterministic_witness :
    ValueEquiv (Value.map mW7) (Value.map mW7r) ∧
    computeProperty genW (Value.map mW7) "" ⟨none, none, none⟩ =
      computeProperty genW (Value.map mW7r) "" ⟨none, none, none⟩ ∧
    (mW7.map Prod.fst).Nodup ∧ mW7.Perm mW7r ∧
    computeMapProperty genW mW7 "" ⟨none, none, none⟩ =
      computeMapProperty genW mW7r "" ⟨none, none, none⟩ ∧
    (sortedKeys mW7).Sorted (· ≤ ·) := by
  have hnd : (mW7.map Prod.fst).Nodup := by decide
  have hperm : mW7.Perm mW7r := List.Perm.swap _ _ _
  have hequiv : ValueEquiv (Value.map mW7) (Value.map mW7r) :=
    .map (mapEquiv_of_perm hnd hperm)
  have h := serialization_deterministic genW
  exact ⟨hequiv, h.1 _ _ hequiv "" ⟨none, none, none⟩, hnd, hperm,
    h.2.1 mW7 mW7r hnd hperm "" ⟨none, none, none⟩, h.2.2 mW7⟩

end TfGen
